import Mathlib

/-!
Verification development for a TLS-terminating reverse proxy.

The embedding below models the three core subsystems of the repository:

* `LRUCache` — the LRU + TTL response cache (`cache.py`), with the Python
  `OrderedDict` modelled as an association list whose head is the least
  recently used entry and whose last element is the most recently used,
  and the `expiry` dict modelled as a second association list.
* `BackendServer` / `LoadBalancer` — the backend health state machine and
  the round-robin selector (`load_balancer.py`).  Timestamps are natural
  numbers (the monotone clock); a health probe's network outcome is
  abstracted as `ProbeOutcome` (success = HTTP 200, failure = non-200
  response or transport exception, which the source treats identically).
* `proxy_request` and its helpers — the forwarding pipeline
  (`reverse_proxy.py`): header hygiene, encoding negotiation, cache key
  generation, the retry loop, and response emission.  Network I/O is
  abstracted as an upstream oracle (one `Except` result per upstream
  attempt); the MD5 digest of the cache key and the external compression
  libraries are modelled as explicit functions as documented at their
  definitions.

Python `time.time()` floats are modelled as `Nat`; subtraction uses
truncated `Nat` subtraction, which agrees with the source on the
monotone traces the program produces (`now` is never earlier than a
stored timestamp).
-/

/-! ## Association-list primitives (Python `dict` / `OrderedDict`) -/

/-- Does the dictionary contain the key? (Python `key in d`.) -/
def containsKey {K V : Type} [DecidableEq K] (l : List (K × V)) (k : K) : Bool :=
  l.any (fun p => decide (p.1 = k))

/-- Value of `k` in the dictionary, if present (Python `d[key]` / `d.get(key)`). -/
def lookupKey {K V : Type} [DecidableEq K] (l : List (K × V)) (k : K) : Option V :=
  (l.find? (fun p => decide (p.1 = k))).map (·.2)

/-- Python `d[key] = value`: update in place if the key exists (keeping its
position in insertion order), otherwise append at the end. -/
def dictSet {K V : Type} [DecidableEq K] (l : List (K × V)) (k : K) (v : V) :
    List (K × V) :=
  if containsKey l k then
    l.map (fun p => if p.1 = k then (p.1, v) else p)
  else
    l ++ [(k, v)]

/-- Python `d.pop(key)`: remove the entry for `k`. -/
def eraseKey {K V : Type} [DecidableEq K] (l : List (K × V)) (k : K) : List (K × V) :=
  l.filter (fun p => !(decide (p.1 = k)))

/-- Python `OrderedDict.move_to_end(key)`: move the entry for `k` to the
most-recently-used end, keeping its value. -/
def moveToEnd {K V : Type} [DecidableEq K] (l : List (K × V)) (k : K) : List (K × V) :=
  match l.find? (fun p => decide (p.1 = k)) with
  | none => l
  | some e => l.filter (fun p => !(decide (p.1 = k))) ++ [e]

/-! ## `cache.py` — `LRUCache` -/

/-- State of `LRUCache`: `cache` is the `OrderedDict` (head = least recently
used), `expiry` the dict of insertion timestamps. -/
structure LRUCache (K V : Type) where
  cache : List (K × V)
  expiry : List (K × Nat)
  capacity : Nat
  TTL : Nat
  deriving DecidableEq, Repr

/-- `LRUCache.__init__`: empty maps, given capacity (source default 1000),
TTL fixed at 300 seconds. -/
def LRUCache.init (K V : Type) (capacity : Nat := 1000) : LRUCache K V :=
  { cache := [], expiry := [], capacity := capacity, TTL := 300 }

/-- `LRUCache.get(key)` at time `now`: hit refreshes recency, an expired
entry is removed from both maps and misses. Returns the result and the
post-state. -/
def LRUCache.get {K V : Type} [DecidableEq K] (s : LRUCache K V) (now : Nat) (k : K) :
    Option V × LRUCache K V :=
  if containsKey s.cache k then
    if now - ((lookupKey s.expiry k).getD 0) > s.TTL then
      (none, { s with cache := eraseKey s.cache k, expiry := eraseKey s.expiry k })
    else
      let c := moveToEnd s.cache k
      (lookupKey c k, { s with cache := c })
  else
    (none, s)

/-- `LRUCache.put(key, value)` at time `now`: refresh recency, store the
value, stamp the expiry, then evict the least recently used entry if the
capacity is exceeded. -/
def LRUCache.put {K V : Type} [DecidableEq K] (s : LRUCache K V) (now : Nat) (k : K)
    (v : V) : LRUCache K V :=
  let c0 := if containsKey s.cache k then moveToEnd s.cache k else s.cache
  let c1 := dictSet c0 k v
  let e1 := dictSet s.expiry k now
  if c1.length > s.capacity then
    match c1 with
    | [] => { s with cache := [], expiry := e1 }
    | oldest :: rest => { s with cache := rest, expiry := eraseKey e1 oldest.1 }
  else
    { s with cache := c1, expiry := e1 }

/-- The two maps of an `LRUCache` are well formed: duplicate-free key rows
and identical key sets. -/
def LRUCache.WF {K V : Type} [DecidableEq K] (s : LRUCache K V) : Prop :=
  (s.cache.map (·.1)).Nodup ∧ (s.expiry.map (·.1)).Nodup ∧
    ∀ k, containsKey s.cache k = containsKey s.expiry k

example : ((LRUCache.init Nat Nat 2).put 5 1 10).cache = [(1, 10)] := by decide

example :
    (((LRUCache.init Nat Nat 2).put 5 1 10).put 6 2 20).cache = [(1, 10), (2, 20)] := by
  decide

example :
    ((((LRUCache.init Nat Nat 2).put 5 1 10).put 6 2 20).put 7 3 30).cache
      = [(2, 20), (3, 30)] := by decide

example :
    (((((LRUCache.init Nat Nat 2).put 5 1 10).put 6 2 20).get 7 1).2.put 7 3 30).cache
      = [(1, 10), (3, 30)] := by decide

example :
    ((((LRUCache.init Nat Nat 2).put 5 1 10).get 400 1)) =
      (none, { cache := [], expiry := [], capacity := 2, TTL := 300 }) := by decide

/-! ## `load_balancer.py` — `HostStatus`, `BackendServer`, `LoadBalancer` -/

/-- Health states of a backend (`HostStatus` enum). -/
inductive HostStatus where
  | NOT_INITIATED
  | HEALTHY
  | UNREACHABLE
  deriving DecidableEq, Repr

/-- Mutable state of a `BackendServer`.  The source's forwarder additionally
assigns a `healthy` attribute that does not exist in `__init__`
(`reverse_proxy.py` line 256); it is modelled as an `Option Bool` that is
`none` until that assignment happens and is read by nobody. -/
structure BackendServer where
  url : String
  status : HostStatus
  last_check : Nat
  check_interval : Nat
  failure_count : Nat
  max_failures : Nat
  last_healthy : Option Nat
  healthy : Option Bool
  deriving DecidableEq, Repr

instance : Inhabited BackendServer :=
  ⟨⟨"", .NOT_INITIATED, 0, 1, 0, 3, none, none⟩⟩

/-- `BackendServer.__init__(url)`. -/
def BackendServer.init (url : String) : BackendServer :=
  { url := url
    status := .NOT_INITIATED
    last_check := 0
    check_interval := 1
    failure_count := 0
    max_failures := 3
    last_healthy := none
    healthy := none }

/-- Network outcome of one health probe: HTTP 200, or anything else
(non-200 status and raised exceptions take the same state-update path in
the source). -/
inductive ProbeOutcome where
  | success
  | failure
  deriving DecidableEq, Repr

/-- Python truthiness of `self.last_healthy and self.last_healthy > 0`:
`None` and `0` are falsy. -/
def lastHealthyTruthy : Option Nat → Bool
  | none => false
  | some t => decide (0 < t)

/-- `BackendServer.check_health` at time `now` with probe outcome
`outcome`: throttled if probed less than `check_interval` ago; on success
become `HEALTHY`, reset the failure count and stamp `last_healthy`; on
failure increment the failure count and become `UNREACHABLE` only if the
count reached `max_failures` and the server was healthy at some point. -/
def BackendServer.check_health (b : BackendServer) (now : Nat)
    (outcome : ProbeOutcome) : BackendServer :=
  if now - b.last_check < b.check_interval then b
  else
    let b1 :=
      match outcome with
      | .success =>
          { b with status := .HEALTHY, failure_count := 0, last_healthy := some now }
      | .failure =>
          let fc := b.failure_count + 1
          if fc ≥ b.max_failures ∧ lastHealthyTruthy b.last_healthy then
            { b with failure_count := fc, status := .UNREACHABLE }
          else
            { b with failure_count := fc }
    { b1 with last_check := now }

/-- The loop body of `LoadBalancer.get_next_backend`, with explicit fuel;
the source's `while True` runs at most `len(backends)` iterations because
the cursor is checked against `start` after every advance.  Returns the
index of the picked backend, if any. -/
def pickLoop (backends : List BackendServer) (start : Nat) :
    Nat → Nat → Option Nat
  | _, 0 => none
  | c, fuel + 1 =>
    if (backends.getD ((c + 1) % backends.length) default).status = .HEALTHY then
      some ((c + 1) % backends.length)
    else if (c + 1) % backends.length = start then none
    else pickLoop backends start ((c + 1) % backends.length) fuel

/-- `LoadBalancer.get_next_backend`: round-robin scan for a `HEALTHY`
backend starting after the cursor.  Returns the picked index (if any) and
the new cursor value (`self.current` ends at the picked index on success
and back at `start` when every backend was examined without success). -/
def LoadBalancer.get_next_backend (backends : List BackendServer)
    (current : Nat) : Option Nat × Nat :=
  match pickLoop backends current current backends.length with
  | some i => (some i, i)
  | none => (none, current)

example :
    (LoadBalancer.get_next_backend
      [{ BackendServer.init "a" with status := .HEALTHY },
       { BackendServer.init "b" with status := .HEALTHY }] 0).1 = some 1 := by decide

example :
    (LoadBalancer.get_next_backend
      [{ BackendServer.init "a" with status := .HEALTHY },
       BackendServer.init "b"] 0) = (some 0, 0) := by decide

example :
    (LoadBalancer.get_next_backend
      [BackendServer.init "a", { BackendServer.init "b" with status := .UNREACHABLE }] 1)
      = (none, 1) := by decide

/-! ## `reverse_proxy.py` — string and header helpers -/

/-- ASCII lowercasing of a string (`str.lower()`; HTTP header names are
ASCII, where Python's `lower` agrees with ASCII lowercasing). -/
def strLower (s : String) : String := String.mk (s.data.map Char.toLower)

/-- Python substring test `pat in s`. -/
def strContains (s pat : String) : Bool :=
  (List.range (s.data.length + 1)).any (fun i => pat.data.isPrefixOf (s.data.drop i))

/-- Case-insensitive header lookup with default (`HTTPMessage.get`), used on
the inbound request's header object. -/
def headerGet (hs : List (String × String)) (name dflt : String) : String :=
  ((hs.find? (fun p => decide (strLower p.1 = strLower name))).map (·.2)).getD dflt

/-- The hop-by-hop header names dropped both from the forwarded request and
from emitted responses (`reverse_proxy.py` lines 162-164, 192-194). -/
def hopByHopNames : List String :=
  ["connection", "keep-alive", "proxy-authenticate", "proxy-authorization",
   "te", "trailers", "transfer-encoding", "upgrade"]

/-- Header names excluded when forwarding upstream response headers on the
miss path: hop-by-hop names plus the two the proxy rewrites
(`reverse_proxy.py` lines 229-231). -/
def missExcludedNames : List String :=
  hopByHopNames ++ ["content-encoding", "content-length"]

/-- Drop hop-by-hop headers (the filter applied on the cache-hit emission
path, lines 191-195). -/
def filterHopByHop (hs : List (String × String)) : List (String × String) :=
  hs.filter (fun p => !(hopByHopNames.contains (strLower p.1)))

/-! ## `reverse_proxy.py` — compression and encoding negotiation -/

/-- Modelled from the spec: `gzip.compress` is an external library. The
model prepends the gzip magic bytes `0x1f 0x8b`; the only property the
development relies on is shared with the real codec: output is a framed
stream that differs from the raw input (real gzip output always begins
with `0x1f 0x8b` and includes a 10-byte header and 8-byte trailer). -/
def gzipCompress (content : List Nat) : List Nat := 31 :: 139 :: content

/-- Modelled from the spec: `brotli.compress` is an external library;
modelled as a framed stream with a distinct tag byte. -/
def brotliCompress (content : List Nat) : List Nat := 27 :: content

/-- Modelled from the spec: `zlib.compress` is an external library;
modelled as prepending the zlib header bytes `0x78 0x9c`. -/
def zlibCompress (content : List Nat) : List Nat := 120 :: 156 :: content

/-- `compress_content(content, encoding)`: dispatch on the encoding name,
returning the input unchanged for anything other than the three codecs. -/
def compress_content (content : List Nat) (encoding : String) : List Nat :=
  if encoding = "gzip" then gzipCompress content
  else if encoding = "br" then brotliCompress content
  else if encoding = "deflate" then zlibCompress content
  else content

/-- `get_accepted_encoding`: substring-based preference `br`, `gzip`,
`deflate`, `identity` over the client's `Accept-Encoding` value. -/
def get_accepted_encoding (clientHeaders : List (String × String)) : String :=
  let ae := headerGet clientHeaders "Accept-Encoding" ""
  if strContains ae "br" then "br"
  else if strContains ae "gzip" then "gzip"
  else if strContains ae "deflate" then "deflate"
  else "identity"

example : get_accepted_encoding [("Accept-Encoding", "gzip, deflate")] = "gzip" := by
  decide

example : get_accepted_encoding [("accept-encoding", "deflate")] = "deflate" := by
  decide

example : get_accepted_encoding [("Host", "h")] = "identity" := by decide

/-- The header-name order used by `sorted(headers.keys())`: code-point
lexicographic comparison, stated on the character data. -/
def headerNameLe (a b : String) : Prop := a.data ≤ b.data

instance : DecidableRel headerNameLe := fun a b =>
  inferInstanceAs (Decidable (a.data ≤ b.data))

instance : IsTotal String headerNameLe := ⟨fun a b => le_total a.data b.data⟩

instance : IsTrans String headerNameLe := ⟨fun _ _ _ h1 h2 => le_trans h1 h2⟩

instance : IsAntisymm String headerNameLe :=
  ⟨fun _ _ h1 h2 => String.ext (le_antisymm h1 h2)⟩

/-! ## `reverse_proxy.py` — `generate_cache_key` -/

/-- Python `str()` applied to a request body: the bytes are treated as an
opaque text form; modelled as the characters of the byte values, which is
injective on byte sequences just as `str(bytes)` is. -/
def pyStrBytes (b : List Nat) : String := String.mk (b.map Char.ofNat)

/-- Python `'|'.join(parts)`. -/
def joinBar : List String → String
  | [] => ""
  | [s] => s
  | s :: rest => s ++ "|" ++ joinBar rest

/-- The header names whose values enter the cache key. -/
def relevantHeaderNames : List String := ["accept", "content-type"]

/-- The trailing key component contributed by the body: `str(body)` when
the body is truthy, nothing otherwise. -/
def bodyParts (body : Option (List Nat)) : List String :=
  match body with
  | some bs => if bs ≠ [] then [pyStrBytes bs] else []
  | none => []

/-- `generate_cache_key(method, path, headers, body, encoding)` up to the
final digest: `[method, path, encoding]`, then `"name:value"` for each
header whose lowercased name is `accept` or `content-type`, walking names
in ascending case-sensitive order, then `str(body)` if the body is truthy,
joined with `'|'`. -/
def cacheKeyString (method path : String) (headers : List (String × String))
    (body : Option (List Nat)) (encoding : String) : String :=
  let sortedNames := (headers.map (·.1)).insertionSort headerNameLe
  let headerParts :=
    (sortedNames.filter (fun n => relevantHeaderNames.contains (strLower n))).map
      (fun n => n ++ ":" ++ ((lookupKey headers n).getD ""))
  joinBar ([method, path, encoding] ++ headerParts ++ bodyParts body)

/-- `generate_cache_key`, including the final digest.  `hashlib.md5` is an
external primitive; it is abstracted as a function parameter `digest`
standing for the lowercase-hex MD5 of the key string (injective on every
input set that does not contain an MD5 collision). -/
def generate_cache_key (digest : String → String) (method path : String)
    (headers : List (String × String)) (body : Option (List Nat))
    (encoding : String) : String :=
  digest (cacheKeyString method path headers body encoding)

example :
    cacheKeyString "GET" "/a" [("Host", "h"), ("Accept", "text/html")] none "gzip"
      = "GET|/a|gzip|Accept:text/html" := by decide

example :
    cacheKeyString "POST" "/a" [("Content-Type", "t"), ("Accept", "a")]
        (some [104, 105]) "identity"
      = "POST|/a|identity|Accept:a|Content-Type:t|hi" := by decide

/-! ## `reverse_proxy.py` — `proxy_request` -/

/-- One inbound request as decoded by the transport: method, path, the
header sequence in arrival order, the materialized body (`None` when
`Content-Length` is absent or zero), and the client address. -/
structure Request where
  method : String
  path : String
  headers : List (String × String)
  body : Option (List Nat)
  clientAddr : String
  deriving DecidableEq, Repr

/-- One upstream response as surfaced by `urllib` on success: status,
header list from `getheaders()`, fully-read body. -/
structure UpstreamResponse where
  status : Nat
  headers : List (String × String)
  body : List Nat
  deriving DecidableEq, Repr

/-- The exception kinds distinguished by the retry loop's handler
(`urllib.error.HTTPError`, `urllib.error.URLError`, plain `Exception`). -/
inductive PyErr where
  | httpError (code : Nat) (reason : String)
  | urlError (reason : String)
  | exc (msg : String)
  deriving DecidableEq, Repr

/-- Values stored in the proxy's response cache. -/
abbrev CacheVal := Nat × List (String × String) × List Nat

/-- Shared state touched by one `proxy_request` invocation: the response
cache, the balancer's backend list, and the round-robin cursor. -/
structure ProxyState where
  cache : LRUCache String CacheVal
  backends : List BackendServer
  current : Nat
  deriving DecidableEq, Repr

/-- What one `proxy_request` call emits (headers listed in `send_header`
order) or the error response produced by `send_error`. -/
inductive Emitted where
  | ok (status : Nat) (headers : List (String × String)) (body : List Nat)
  | err (status : Nat) (reason : String)
  deriving DecidableEq, Repr

/-- Result of a `proxy_request` run, with instrumentation counters for how
often the balancer was consulted and how many upstream calls were made. -/
structure Outcome where
  emitted : Emitted
  state : ProxyState
  balancerCalls : Nat
  upstreamCalls : Nat
  deriving DecidableEq, Repr

/-- Forwarded request headers (`reverse_proxy.py` lines 160-170): copy the
inbound headers minus hop-by-hop names into a fresh dict, then set the
three `X-Forwarded-*` entries. -/
def forwardHeaders (req : Request) : List (String × String) :=
  let base := req.headers.foldl
    (fun d p => if hopByHopNames.contains (strLower p.1) then d else dictSet d p.1 p.2)
    []
  dictSet
    (dictSet (dictSet base "X-Forwarded-For" req.clientAddr)
      "X-Forwarded-Host" (headerGet req.headers "Host" ""))
    "X-Forwarded-Proto" "https"

/-- The retry handler's backend mutation (`backend.healthy = False`, line
256): it writes a `healthy` attribute that no other code reads. -/
def markBackendFailed (b : BackendServer) : BackendServer :=
  { b with healthy := some false }

/-- The message of the exception raised when the balancer returns no
backend (line 154). -/
def noHealthyMsg : String := "No healthy backend servers available"

/-- `send_error` mapping after retry exhaustion (lines 260-265). -/
def sendErrorOf : Option PyErr → Emitted
  | some (.httpError code reason) => .err code reason
  | some (.urlError reason) => .err 500 reason
  | some (.exc msg) => .err 500 msg
  | none => .err 500 "None"

/-- The body of the `while retries <= max_retries` loop of
`proxy_request`, with the remaining iteration budget as explicit fuel
(`fuel = max_retries + 1 - retries`).  `world n` is the outcome of the
`n`-th upstream `urlopen` (success, or the exception it raises);
`digest` abstracts `hashlib.md5(...).hexdigest()`. -/
def proxyLoop (digest : String → String)
    (world : Nat → Except PyErr UpstreamResponse) (req : Request) (now : Nat) :
    Nat → Nat → Option PyErr → ProxyState → Nat → Nat → Outcome
  | 0, _, lastExc, st, bCalls, uCalls =>
      { emitted := sendErrorOf lastExc, state := st,
        balancerCalls := bCalls, upstreamCalls := uCalls }
  | fuel + 1, retries, _lastExc, st, bCalls, uCalls =>
      let pick := LoadBalancer.get_next_backend st.backends st.current
      let st1 : ProxyState := { st with current := pick.2 }
      match pick.1 with
      | none =>
          proxyLoop digest world req now fuel (retries + 1)
            (some (.exc noHealthyMsg)) st1 (bCalls + 1) uCalls
      | some i =>
          let backend := st1.backends.getD i default
          let fheaders := forwardHeaders req
          let encoding := get_accepted_encoding req.headers
          let key := generate_cache_key digest req.method req.path fheaders
            req.body encoding
          let hit := if req.method = "GET" then st1.cache.get now key
            else (none, st1.cache)
          let st2 : ProxyState := { st1 with cache := hit.2 }
          match hit.1 with
          | some (status, chdrs, content) =>
              { emitted := .ok status (filterHopByHop chdrs ++ [("X-Cache", "HIT")])
                  content,
                state := st2, balancerCalls := bCalls + 1, upstreamCalls := uCalls }
          | none =>
              match world uCalls with
              | .ok resp =>
                  let content :=
                    if encoding ≠ "identity" then compress_content resp.body encoding
                    else resp.body
                  let encHdrs : List (String × String) :=
                    if encoding ≠ "identity" then [("Content-Encoding", encoding)]
                    else []
                  let fwd := resp.headers.filter
                    (fun p => !(missExcludedNames.contains (strLower p.1)))
                  let outHdrs := encHdrs ++ fwd ++
                    [("Content-Length", toString content.length),
                     ("X-Cache", "MISS"), ("X-Backend-Server", backend.url)] ++
                    (if 0 < retries then [("X-Retry-Count", toString retries)] else [])
                  let st3 :=
                    if req.method = "GET" then
                      { st2 with cache :=
                          st2.cache.put now key (resp.status, resp.headers, content) }
                    else st2
                  { emitted := .ok resp.status outHdrs content, state := st3,
                    balancerCalls := bCalls + 1, upstreamCalls := uCalls + 1 }
              | .error e =>
                  let bks := st2.backends.set i (markBackendFailed backend)
                  let st3 : ProxyState := { st2 with backends := bks }
                  proxyLoop digest world req now fuel (retries + 1) (some e) st3
                    (bCalls + 1) (uCalls + 1)

/-- `max_retries = 2` (line 145). -/
def max_retries : Nat := 2

/-- `proxy_request(method)`: run the retry loop from `retries = 0` with no
recorded exception. -/
def proxy_request (digest : String → String)
    (world : Nat → Except PyErr UpstreamResponse) (req : Request) (now : Nat)
    (st : ProxyState) : Outcome :=
  proxyLoop digest world req now (max_retries + 1) 0 none st 0 0

/-- The cache key computed inside the retry loop: the forwarded headers
(with `X-Forwarded-*` set), the materialized body and the negotiated
encoding (line 180). -/
def requestCacheKey (digest : String → String) (req : Request) : String :=
  generate_cache_key digest req.method req.path (forwardHeaders req) req.body
    (get_accepted_encoding req.headers)

/-- The body emitted on the miss path: the upstream body, compressed when
the negotiated encoding is not `identity` (lines 222-224). -/
def missBody (req : Request) (resp : UpstreamResponse) : List Nat :=
  if get_accepted_encoding req.headers ≠ "identity"
  then compress_content resp.body (get_accepted_encoding req.headers)
  else resp.body

/-- The headers emitted on the miss path, in `send_header` order (lines
223-238): `Content-Encoding` when compressing, the upstream headers minus
hop-by-hop and rewritten names, then `Content-Length`, `X-Cache: MISS`,
`X-Backend-Server`, and `X-Retry-Count` when retries happened. -/
def missHeaders (req : Request) (resp : UpstreamResponse) (backendUrl : String)
    (retries : Nat) : List (String × String) :=
  (if get_accepted_encoding req.headers ≠ "identity"
    then [("Content-Encoding", get_accepted_encoding req.headers)] else [])
  ++ resp.headers.filter (fun p => !(missExcludedNames.contains (strLower p.1)))
  ++ [("Content-Length", toString (missBody req resp).length),
      ("X-Cache", "MISS"), ("X-Backend-Server", backendUrl)]
  ++ (if 0 < retries then [("X-Retry-Count", toString retries)] else [])

/-- Shape of bodies the proxy materializes: absent (`Content-Length`
missing or 0, line 174), or a non-empty byte string. -/
def bodyOk : Option (List Nat) → Prop
  | none => True
  | some bs => bs ≠ []

/-- Bodies are byte sequences: every element is below 256. -/
def bodyBytes : Option (List Nat) → Prop
  | none => True
  | some bs => ∀ x ∈ bs, x < 256

/-! ## Concrete fixtures used by counterexamples and witnesses -/

/-- A GET request whose client negotiates gzip. -/
def reqGzip : Request :=
  { method := "GET", path := "/a", headers := [("Accept-Encoding", "gzip")],
    body := none, clientAddr := "1.2.3.4" }

/-- An upstream 200 response with body bytes `hi` and a matching
`Content-Length` header. -/
def upstreamHi : UpstreamResponse :=
  { status := 200, headers := [("Content-Length", "2")], body := [104, 105] }

/-- An upstream oracle that answers every attempt with `upstreamHi`. -/
def worldHi : Nat → Except PyErr UpstreamResponse := fun _ => .ok upstreamHi

/-- A single healthy backend. -/
def healthyB0 : BackendServer := { BackendServer.init "b0" with status := .HEALTHY }

/-- Proxy state with an empty cache and one healthy backend. -/
def stHealthy : ProxyState :=
  { cache := LRUCache.init String CacheVal 1000, backends := [healthyB0], current := 0 }

/-- Proxy state with an empty cache and no healthy backend. -/
def stAllDown : ProxyState :=
  { cache := LRUCache.init String CacheVal 1000,
    backends := [BackendServer.init "b0",
                 { BackendServer.init "b1" with status := .UNREACHABLE }],
    current := 0 }

/-- First run of `reqGzip` against `stHealthy` (a cache miss). -/
def missOutcome : Outcome := proxy_request id worldHi reqGzip 5 stHealthy

/-- Second run of `reqGzip`, against the post-miss state (a cache hit). -/
def hitOutcome : Outcome := proxy_request id worldHi reqGzip 6 missOutcome.state

/-! ## Health state machine: claims C4 -/

/-- A failed probe of a backend whose `last_healthy` is unset leaves the
status unchanged and `last_healthy` unset: the `UNREACHABLE` transition is
guarded by the truthiness of `last_healthy`. -/
theorem check_health_failure_of_none (b : BackendServer) (now : Nat)
    (hl : b.last_healthy = none) :
    (b.check_health now .failure).status = b.status ∧
      (b.check_health now .failure).last_healthy = none := by
  unfold BackendServer.check_health
  split
  · exact ⟨rfl, hl⟩
  · simp [hl, lastHealthyTruthy]

/-- C4: for every backend and every sequence of health-probe steps, a
backend that has never had a successful probe (status `NOT_INITIATED`,
`last_healthy` unset) never reaches `UNREACHABLE`, no matter how many
consecutive probe failures accumulate (at arbitrary probe times, so both
throttled and unthrottled probes are covered). -/
theorem C4_notInitiated_never_unreachable (b : BackendServer)
    (hs0 : b.status = .NOT_INITIATED) (hl0 : b.last_healthy = none)
    (times : List Nat) :
    (times.foldl (fun s t => s.check_health t .failure) b).status
      ≠ .UNREACHABLE := by
  suffices h : ∀ (ts : List Nat) (s : BackendServer), s.status = .NOT_INITIATED →
      s.last_healthy = none →
      (ts.foldl (fun s t => s.check_health t .failure) s).status = .NOT_INITIATED by
    intro hc
    rw [h times b hs0 hl0] at hc
    exact HostStatus.noConfusion hc
  intro ts
  induction ts with
  | nil => intro s h1 _; simpa using h1
  | cons t ts ih =>
      intro s h1 h2
      have hp := check_health_failure_of_none s t h2
      exact ih _ (hp.1.trans h1) hp.2

/-- Witness for C4: a freshly initialized backend stays out of
`UNREACHABLE` across five failing probes. -/
theorem C4_witness :
    ([1, 2, 3, 4, 5].foldl (fun s t => s.check_health t .failure)
        (BackendServer.init "b")).status ≠ .UNREACHABLE :=
  C4_notInitiated_never_unreachable (BackendServer.init "b") rfl rfl [1, 2, 3, 4, 5]

/-! ## Round-robin balancer: claim C5 -/

/-- Splitting a remainder when the dividend is below twice the divisor. -/
theorem mod_two_cases (x N : Nat) (h : x < 2 * N) :
    x % N = if x < N then x else x - N := by
  split
  · exact Nat.mod_eq_of_lt (by assumption)
  · have hx : N ≤ x := Nat.le_of_not_lt (by assumption)
    rw [Nat.mod_eq_sub_mod hx, Nat.mod_eq_of_lt (by omega)]

/-- `getD` at an in-range index. -/
theorem getD_lt {α : Type} [Inhabited α] (l : List α) (i : Nat) (h : i < l.length) :
    l.getD i default = l[i] := by
  rw [List.getD_eq_getElem?_getD, List.getElem?_eq_getElem h, Option.getD_some]

/-- `getD` past the end. -/
theorem getD_ge {α : Type} [Inhabited α] (l : List α) (i : Nat) (h : l.length ≤ i) :
    l.getD i default = default := by
  rw [List.getD_eq_getElem?_getD, List.getElem?_eq_none h, Option.getD_none]

/-- Any index returned by the selection loop holds a `HEALTHY` backend. -/
theorem pickLoop_some_healthy (bs : List BackendServer) (start : Nat) :
    ∀ fuel c i, pickLoop bs start c fuel = some i →
      (bs.getD i default).status = .HEALTHY := by
  intro fuel
  induction fuel with
  | zero => intro c i h; exact Option.noConfusion h
  | succ n ih =>
      intro c i h
      unfold pickLoop at h
      split at h
      · cases h; assumption
      · split at h
        · exact Option.noConfusion h
        · exact ih _ _ h

/-- When no backend is `HEALTHY` the selection loop returns nothing. -/
theorem pickLoop_none_of_all_unhealthy (bs : List BackendServer) (start : Nat)
    (hall : ∀ b ∈ bs, b.status ≠ .HEALTHY) :
    ∀ fuel c, pickLoop bs start c fuel = none := by
  have hstat : ∀ j, (bs.getD j default).status ≠ .HEALTHY := by
    intro j
    by_cases hj : j < bs.length
    · rw [getD_lt bs j hj]
      exact hall _ (List.getElem_mem hj)
    · rw [getD_ge bs j (Nat.le_of_not_lt hj)]
      exact fun hc => HostStatus.noConfusion hc
  intro fuel
  induction fuel with
  | zero => intro c; rfl
  | succ n ih =>
      intro c
      unfold pickLoop
      rw [if_neg (hstat _)]
      split
      · rfl
      · exact ih _

/-- If the selection loop exhausts its cyclic segment without a hit, every
backend in that segment is unhealthy.  The segment starting at cursor `c`
has `N - ((c + N - start) % N)` elements, where `N` is the number of
backends. -/
theorem pickLoop_none_covers (bs : List BackendServer) (start : Nat)
    (hstart : start < bs.length) :
    ∀ fuel c, c < bs.length →
      bs.length - ((c + bs.length - start) % bs.length) ≤ fuel →
      pickLoop bs start c fuel = none →
      ∀ i, 1 ≤ i → i ≤ bs.length - ((c + bs.length - start) % bs.length) →
        (bs.getD ((c + i) % bs.length) default).status ≠ .HEALTHY := by
  have hNpos : 0 < bs.length := by omega
  intro fuel
  induction fuel with
  | zero =>
      intro c _ hfuel _ i h1 h2
      have hm : (c + bs.length - start) % bs.length < bs.length :=
        Nat.mod_lt _ hNpos
      omega
  | succ n ih =>
      intro c hc hfuel hloop i h1 h2
      unfold pickLoop at hloop
      by_cases hhealthy :
          (bs.getD ((c + 1) % bs.length) default).status = .HEALTHY
      · rw [if_pos hhealthy] at hloop
        exact Option.noConfusion hloop
      · rw [if_neg hhealthy] at hloop
        have hmc := mod_two_cases (c + bs.length - start) bs.length (by omega)
        have hmc1 := mod_two_cases (c + 1) bs.length (by omega)
        by_cases hc2 : (c + 1) % bs.length = start
        · rw [if_pos hc2] at hloop
          have hm1 : (c + bs.length - start) % bs.length = bs.length - 1 := by
            rw [hmc1] at hc2
            rw [hmc]
            split at hc2 <;> split <;> omega
          have hi : i = 1 := by omega
          subst hi
          exact hhealthy
        · rw [if_neg hc2] at hloop
          have hmlt : (c + bs.length - start) % bs.length < bs.length :=
            Nat.mod_lt _ hNpos
          -- the cursor is not one short of start, so its distance is not N - 1
          have hne : (c + bs.length - start) % bs.length ≠ bs.length - 1 := by
            intro hcontra
            apply hc2
            rw [hmc1]
            rw [hmc] at hcontra
            split at hcontra <;> split <;> omega
          have hstep : ((c + 1) % bs.length + bs.length - start) % bs.length
              = (c + bs.length - start) % bs.length + 1 := by
            have e1 : (c + 1) % bs.length + bs.length - start
                = (c + 1) % bs.length + (bs.length - start) := by omega
            rw [e1, Nat.mod_add_mod]
            have e2 : c + 1 + (bs.length - start) = (c + bs.length - start) + 1 := by
              omega
            rw [e2]
            conv_lhs => rw [← Nat.mod_add_mod]
            exact Nat.mod_eq_of_lt (by omega)
          have hrec := ih ((c + 1) % bs.length) (Nat.mod_lt _ hNpos)
            (by rw [hstep]; omega) hloop
          by_cases hi1 : i = 1
          · subst hi1; exact hhealthy
          · have := hrec (i - 1) (by omega) (by rw [hstep]; omega)
            have heq : ((c + 1) % bs.length + (i - 1)) % bs.length
                = (c + i) % bs.length := by
              rw [Nat.mod_add_mod]
              have : c + 1 + (i - 1) = c + i := by omega
              rw [this]
            rw [heq] at this
            exact this

/-- Every index below `N` is reached from `start` within `N` cyclic steps. -/
theorem cover_index (N start j : Nat) (hstart : start < N) (hj : j < N) :
    ∃ i, 1 ≤ i ∧ i ≤ N ∧ (start + i) % N = j := by
  by_cases h : start < j
  · refine ⟨j - start, by omega, by omega, ?_⟩
    have e : start + (j - start) = j := by omega
    rw [e, Nat.mod_eq_of_lt hj]
  · refine ⟨j + N - start, by omega, by omega, ?_⟩
    have e : start + (j + N - start) = j + N := by omega
    rw [e, Nat.add_mod_right, Nat.mod_eq_of_lt hj]

/-- The picked component of `get_next_backend` is the loop's result. -/
theorem fst_get_next_backend (bs : List BackendServer) (current : Nat) :
    (LoadBalancer.get_next_backend bs current).1
      = pickLoop bs current current bs.length := by
  unfold LoadBalancer.get_next_backend
  split <;> simp_all

/-- C5: for every non-empty backend list and every cursor position,
`get_next_backend` returns an index only if that backend's status is
`HEALTHY`, and it returns `none` exactly when no backend in the list is
`HEALTHY`. -/
theorem C5_pick_healthy_iff (bs : List BackendServer) (current : Nat)
    (_hne : bs ≠ []) (hcur : current < bs.length) :
    (∀ i, (LoadBalancer.get_next_backend bs current).1 = some i →
        i < bs.length ∧ (bs.getD i default).status = .HEALTHY) ∧
    ((LoadBalancer.get_next_backend bs current).1 = none ↔
      ∀ b ∈ bs, b.status ≠ .HEALTHY) := by
  constructor
  · intro i h
    rw [fst_get_next_backend] at h
    have hh := pickLoop_some_healthy bs current _ _ _ h
    refine ⟨?_, hh⟩
    by_contra hlt
    rw [getD_ge bs i (Nat.le_of_not_lt hlt)] at hh
    exact HostStatus.noConfusion hh
  · constructor
    · intro h b hb
      rw [fst_get_next_backend] at h
      have hm0 : (current + bs.length - current) % bs.length = 0 := by
        have e : current + bs.length - current = bs.length := by omega
        rw [e, Nat.mod_self]
      obtain ⟨j, hj, hbj⟩ := List.getElem_of_mem hb
      obtain ⟨i, hi1, hi2, hieq⟩ := cover_index bs.length current j hcur hj
      have hcov := pickLoop_none_covers bs current hcur bs.length current hcur
        (by omega) h i hi1 (by omega)
      rw [hieq] at hcov
      rw [getD_lt bs j hj, hbj] at hcov
      exact hcov
    · intro h
      rw [fst_get_next_backend]
      exact pickLoop_none_of_all_unhealthy bs current h bs.length current

/-- Witness for C5: with backends `[NOT_INITIATED, HEALTHY]` and cursor 0
the balancer picks index 1, which the theorem certifies to be healthy. -/
theorem C5_witness :
    1 < [BackendServer.init "b0", healthyB0].length ∧
      ([BackendServer.init "b0", healthyB0].getD 1 default).status = .HEALTHY :=
  (C5_pick_healthy_iff [BackendServer.init "b0", healthyB0] 0
      (by decide) (by decide)).1 1 (by decide)

/-! ## Forwarder retry loop: claims C3 and C8 -/

/-- With no healthy backend the balancer returns `none` and leaves the
cursor where it started. -/
theorem get_next_backend_none (bs : List BackendServer) (current : Nat)
    (hall : ∀ b ∈ bs, b.status ≠ .HEALTHY) :
    LoadBalancer.get_next_backend bs current = (none, current) := by
  unfold LoadBalancer.get_next_backend
  rw [pickLoop_none_of_all_unhealthy bs current hall bs.length current]

/-- One iteration of the retry loop in the no-backend case: the raised
exception is caught, recorded, and the loop continues with one more retry
and one more balancer consultation. -/
theorem proxyLoop_noBackend_step (digest : String → String)
    (world : Nat → Except PyErr UpstreamResponse) (req : Request) (now : Nat)
    (st : ProxyState) (fuel retries : Nat) (lastExc : Option PyErr)
    (bCalls uCalls : Nat)
    (hall : ∀ b ∈ st.backends, b.status ≠ .HEALTHY) :
    proxyLoop digest world req now (fuel + 1) retries lastExc st bCalls uCalls
      = proxyLoop digest world req now fuel (retries + 1)
          (some (.exc noHealthyMsg)) st (bCalls + 1) uCalls := by
  have hpick := get_next_backend_none st.backends st.current hall
  simp only [proxyLoop, hpick]

/-- C3 (amended): whenever the Balancer returns no backend, the Forwarder
records the "no healthy backend" exception as the last error but does
*not* exit the loop: the exception is caught by the retry handler, so the
balancer is consulted on every one of the `max_retries + 1 = 3` loop
iterations, no upstream call is made, and after exhaustion the client
receives `500 "No healthy backend servers available"`. -/
theorem C3_amended_retry_exhaustion (digest : String → String)
    (world : Nat → Except PyErr UpstreamResponse) (req : Request) (now : Nat)
    (st : ProxyState) (_hne : st.backends ≠ [])
    (hall : ∀ b ∈ st.backends, b.status ≠ .HEALTHY) :
    proxy_request digest world req now st
      = { emitted := .err 500 noHealthyMsg, state := st,
          balancerCalls := 3, upstreamCalls := 0 } := by
  have h3 : proxy_request digest world req now st
      = proxyLoop digest world req now (2 + 1) 0 none st 0 0 := rfl
  rw [h3, proxyLoop_noBackend_step digest world req now st 2 0 none 0 0 hall]
  have h2 : (2 : Nat) = 1 + 1 := rfl
  rw [h2, proxyLoop_noBackend_step digest world req now st 1 1 _ 1 0 hall]
  have h1 : (1 : Nat) = 0 + 1 := rfl
  rw [h1, proxyLoop_noBackend_step digest world req now st 0 2 _ 2 0 hall]
  rfl

/-- Counterexample to C3 as stated: with both backends unhealthy, the
Forwarder does not break out of the loop after the Balancer's first
`none` — it consults the Balancer on all 3 iterations (the claim's
"makes no further attempts" would mean exactly 1 consultation), and the
client then receives 500 with the "no healthy backend" message. -/
theorem C3_counterexample :
    (proxy_request id worldHi reqGzip 5 stAllDown).balancerCalls = 3 ∧
      (proxy_request id worldHi reqGzip 5 stAllDown).balancerCalls ≠ 1 ∧
      (proxy_request id worldHi reqGzip 5 stAllDown).emitted
        = .err 500 "No healthy backend servers available" := by
  refine ⟨by decide, by decide, by decide⟩

/-- Witness for the amended C3, at the concrete all-unhealthy state. -/
theorem C3_amended_witness :
    proxy_request id worldHi reqGzip 5 stAllDown
      = { emitted := .err 500 noHealthyMsg, state := stAllDown,
          balancerCalls := 3, upstreamCalls := 0 } :=
  C3_amended_retry_exhaustion id worldHi reqGzip 5 stAllDown
    (by decide) (by decide)

/-- Statuses seen through `getD` are unchanged when one backend is
replaced by its `markBackendFailed` copy. -/
theorem statusAt_set_markFailed (bs : List BackendServer) (i j : Nat) :
    ((bs.set i (markBackendFailed (bs.getD i default))).getD j default).status
      = (bs.getD j default).status := by
  have hlen : (bs.set i (markBackendFailed (bs.getD i default))).length = bs.length := by
    simp
  by_cases hj : j < bs.length
  · rw [getD_lt _ j (by omega), getD_lt _ j hj]
    rw [List.getElem_set]
    split
    · next hij =>
        subst hij
        rw [getD_lt _ _ hj]
        rfl
    · rfl
  · rw [getD_ge _ j (by omega), getD_ge _ j (by omega)]

/-- The selection loop only reads backend statuses and the list length, so
it is invariant under status-preserving pointwise changes. -/
theorem pickLoop_congr (bs1 bs2 : List BackendServer)
    (hlen : bs1.length = bs2.length)
    (hstat : ∀ j, (bs1.getD j default).status = (bs2.getD j default).status) :
    ∀ fuel start c, pickLoop bs1 start c fuel = pickLoop bs2 start c fuel := by
  intro fuel
  induction fuel with
  | zero => intro start c; rfl
  | succ n ih =>
      intro start c
      unfold pickLoop
      rw [hlen, hstat ((c + 1) % bs2.length)]
      split
      · rfl
      · split
        · rfl
        · exact ih start ((c + 1) % bs2.length)

/-- Round-robin selection is unaffected by the retry handler's
`backend.healthy = False` write. -/
theorem get_next_backend_set_markFailed (bs : List BackendServer) (i cur : Nat) :
    LoadBalancer.get_next_backend
        (bs.set i (markBackendFailed (bs.getD i default))) cur
      = LoadBalancer.get_next_backend bs cur := by
  have hlen : (bs.set i (markBackendFailed (bs.getD i default))).length = bs.length := by
    simp
  unfold LoadBalancer.get_next_backend
  rw [hlen, pickLoop_congr _ bs hlen (fun j => statusAt_set_markFailed bs i j)
    bs.length cur cur]

/-- C8: the retry branch's backend mutation (`backend.healthy = False`)
leaves all four health fields — status, failure count, last-healthy and
last-check timestamps — unchanged, and a backend list in which the picked
backend has been so mutated yields exactly the same balancer picks, so the
backend remains eligible for selection. -/
theorem C8_failed_attempt_preserves_health (b : BackendServer)
    (bs : List BackendServer) (cur i : Nat) :
    (markBackendFailed b).status = b.status ∧
    (markBackendFailed b).failure_count = b.failure_count ∧
    (markBackendFailed b).last_healthy = b.last_healthy ∧
    (markBackendFailed b).last_check = b.last_check ∧
    LoadBalancer.get_next_backend
        (bs.set i (markBackendFailed (bs.getD i default))) cur
      = LoadBalancer.get_next_backend bs cur :=
  ⟨rfl, rfl, rfl, rfl, get_next_backend_set_markFailed bs i cur⟩

/-! ## Cache association-list lemmas -/

/-- Key membership characterizes `containsKey`. -/
theorem containsKey_iff_mem {K V : Type} [DecidableEq K] (l : List (K × V)) (k : K) :
    containsKey l k = true ↔ k ∈ l.map (·.1) := by
  unfold containsKey
  rw [List.any_eq_true]
  constructor
  · rintro ⟨p, hp, he⟩
    exact List.mem_map.mpr ⟨p, hp, by simpa using he⟩
  · intro hm
    obtain ⟨p, hp, he⟩ := List.mem_map.mp hm
    exact ⟨p, hp, by simpa using he⟩

/-- `lookupKey` succeeds exactly on contained keys. -/
theorem lookupKey_isSome_eq {K V : Type} [DecidableEq K] (l : List (K × V)) (k : K) :
    (lookupKey l k).isSome = containsKey l k := by
  induction l with
  | nil => rfl
  | cons p t ih =>
      by_cases h : p.1 = k <;>
        simp [lookupKey, containsKey, List.find?_cons, h] <;>
        simpa [lookupKey, containsKey] using ih

/-- A key not contained is not found. -/
theorem lookupKey_of_not_contains {K V : Type} [DecidableEq K] (l : List (K × V))
    (k : K) (h : containsKey l k = false) : lookupKey l k = none := by
  have := lookupKey_isSome_eq l k
  rw [h] at this
  exact Option.not_isSome_iff_eq_none.mp (by rw [this]; exact Bool.false_ne_true)

/-- `moveToEnd` with an absent key is the identity. -/
theorem moveToEnd_of_not_contains {K V : Type} [DecidableEq K] (l : List (K × V))
    (k : K) (h : containsKey l k = false) : moveToEnd l k = l := by
  unfold moveToEnd
  have hf : l.find? (fun p => decide (p.1 = k)) = none := by
    rw [List.find?_eq_none]
    intro p hp
    simp only [decide_eq_true_eq]
    intro he
    have hc : containsKey l k = true :=
      (containsKey_iff_mem l k).mpr (List.mem_map.mpr ⟨p, hp, he⟩)
    rw [h] at hc
    exact Bool.noConfusion hc
  rw [hf]

/-- Decomposition of `moveToEnd` on a contained key: the entry for `k` is
found, removed, and re-appended with its original value. -/
theorem moveToEnd_of_contains {K V : Type} [DecidableEq K] (l : List (K × V))
    (k : K) (h : containsKey l k = true) :
    ∃ v, lookupKey l k = some v ∧ moveToEnd l k = eraseKey l k ++ [(k, v)] := by
  have hs : (lookupKey l k).isSome = true := by rw [lookupKey_isSome_eq, h]
  obtain ⟨p, hp⟩ : ∃ p, l.find? (fun q => decide (q.1 = k)) = some p := by
    unfold lookupKey at hs
    cases hf : l.find? (fun q => decide (q.1 = k)) with
    | none => rw [hf] at hs; exact Bool.noConfusion hs
    | some p => exact ⟨p, rfl⟩
  have hpk : p.1 = k := by
    have := List.find?_some hp
    simpa using this
  refine ⟨p.2, ?_, ?_⟩
  · unfold lookupKey
    rw [hp]
    rfl
  · unfold moveToEnd eraseKey
    rw [hp]
    have : p = (k, p.2) := by
      cases p with
      | mk a b => simp only at hpk ⊢; rw [hpk]
    rw [← this]

/-- Finding a key skips a prefix that does not contain it. -/
theorem lookupKey_append_right {K V : Type} [DecidableEq K]
    (l1 l2 : List (K × V)) (k : K) (h : containsKey l1 k = false) :
    lookupKey (l1 ++ l2) k = lookupKey l2 k := by
  unfold lookupKey
  rw [List.find?_append]
  have hf : l1.find? (fun p => decide (p.1 = k)) = none := by
    rw [List.find?_eq_none]
    intro p hp
    simp only [decide_eq_true_eq]
    intro he
    have hc : containsKey l1 k = true :=
      (containsKey_iff_mem l1 k).mpr (List.mem_map.mpr ⟨p, hp, he⟩)
    rw [h] at hc
    exact Bool.noConfusion hc
  rw [hf, Option.none_or]

/-- Finding a key stays in a prefix that contains it. -/
theorem lookupKey_append_left {K V : Type} [DecidableEq K]
    (l1 l2 : List (K × V)) (k : K) (h : containsKey l1 k = true) :
    lookupKey (l1 ++ l2) k = lookupKey l1 k := by
  unfold lookupKey
  rw [List.find?_append]
  have hs : (lookupKey l1 k).isSome = true := by rw [lookupKey_isSome_eq, h]
  unfold lookupKey at hs
  cases hf : l1.find? (fun p => decide (p.1 = k)) with
  | none => rw [hf] at hs; exact Bool.noConfusion hs
  | some p => rfl

/-- Erasure removes the erased key. -/
theorem containsKey_eraseKey_self {K V : Type} [DecidableEq K]
    (l : List (K × V)) (k : K) : containsKey (eraseKey l k) k = false := by
  unfold containsKey eraseKey
  rw [List.any_eq_false]
  intro p hp
  have := (List.mem_filter.mp hp).2
  simpa using this

/-- Erasure keeps every other key's containment. -/
theorem containsKey_eraseKey_ne {K V : Type} [DecidableEq K]
    (l : List (K × V)) (k j : K) (h : j ≠ k) :
    containsKey (eraseKey l k) j = containsKey l j := by
  unfold containsKey eraseKey
  rw [Bool.eq_iff_iff, List.any_eq_true, List.any_eq_true]
  constructor
  · rintro ⟨p, hp, hpj⟩
    exact ⟨p, (List.mem_filter.mp hp).1, hpj⟩
  · rintro ⟨p, hp, hpj⟩
    refine ⟨p, List.mem_filter.mpr ⟨hp, ?_⟩, hpj⟩
    simp only [decide_eq_true_eq] at hpj
    simp [hpj, h]

/-! ## Cache TTL semantics: claim C7 -/

/-- C7: `get(k)` at time `now` returns the stored value — and moves `k` to
the most-recently-used end while leaving the expiry map untouched —
exactly when an entry for `k` exists and `now − insertedAt ≤ TTL`; when
the entry exists but is older than TTL, `get` removes it from both maps
and returns absent; and an absent key returns absent with the state
unchanged. -/
theorem C7_get_ttl_semantics {K V : Type} [DecidableEq K]
    (s : LRUCache K V) (now : Nat) (k : K) :
    (containsKey s.cache k = false → s.get now k = (none, s)) ∧
    (containsKey s.cache k = true →
      now - ((lookupKey s.expiry k).getD 0) ≤ s.TTL →
        (s.get now k).1 = lookupKey s.cache k ∧
        ((s.get now k).1).isSome = true ∧
        (((s.get now k).2.cache.getLast?).map (·.1)) = some k ∧
        (s.get now k).2.expiry = s.expiry) ∧
    (containsKey s.cache k = true →
      s.TTL < now - ((lookupKey s.expiry k).getD 0) →
        (s.get now k).1 = none ∧
        containsKey (s.get now k).2.cache k = false ∧
        containsKey (s.get now k).2.expiry k = false) ∧
    ((s.get now k).1.isSome
      = (containsKey s.cache k
          && decide (now - ((lookupKey s.expiry k).getD 0) ≤ s.TTL))) := by
  refine ⟨?_, ?_, ?_, ?_⟩
  · intro h
    simp [LRUCache.get, h]
  · intro h hle
    obtain ⟨v, hv, hme⟩ := moveToEnd_of_contains s.cache k h
    have hnotexp : ¬ (now - ((lookupKey s.expiry k).getD 0) > s.TTL) := by omega
    have hget : s.get now k
        = (lookupKey (moveToEnd s.cache k) k, { s with cache := moveToEnd s.cache k }) := by
      simp [LRUCache.get, h, hnotexp]
    have hl : lookupKey (moveToEnd s.cache k) k = some v := by
      rw [hme, lookupKey_append_right _ _ _ (containsKey_eraseKey_self s.cache k)]
      simp [lookupKey]
    refine ⟨?_, ?_, ?_, ?_⟩
    · rw [hget]
      rw [hl, hv]
    · rw [hget]
      rw [hl]
      rfl
    · rw [hget]
      simp only [hme]
      rw [List.getLast?_concat]
      rfl
    · rw [hget]
  · intro h hgt
    have hexp : now - ((lookupKey s.expiry k).getD 0) > s.TTL := hgt
    have hget : s.get now k
        = (none, { s with cache := eraseKey s.cache k, expiry := eraseKey s.expiry k }) := by
      simp [LRUCache.get, h, hexp]
    rw [hget]
    exact ⟨rfl, containsKey_eraseKey_self s.cache k, containsKey_eraseKey_self s.expiry k⟩
  · by_cases h : containsKey s.cache k = true
    · by_cases he : now - ((lookupKey s.expiry k).getD 0) ≤ s.TTL
      · obtain ⟨v, hv, hme⟩ := moveToEnd_of_contains s.cache k h
        have hnotexp : ¬ (now - ((lookupKey s.expiry k).getD 0) > s.TTL) := by omega
        have hget : s.get now k
            = (lookupKey (moveToEnd s.cache k) k,
               { s with cache := moveToEnd s.cache k }) := by
          simp [LRUCache.get, h, hnotexp]
        have hl : lookupKey (moveToEnd s.cache k) k = some v := by
          rw [hme, lookupKey_append_right _ _ _ (containsKey_eraseKey_self s.cache k)]
          simp [lookupKey]
        rw [hget]
        simp [hl, h, he]
      · have hexp : now - ((lookupKey s.expiry k).getD 0) > s.TTL := by omega
        have hget : s.get now k
            = (none, { s with cache := eraseKey s.cache k,
                              expiry := eraseKey s.expiry k }) := by
          simp [LRUCache.get, h, hexp]
        rw [hget]
        simp [h, he]
    · have hf : containsKey s.cache k = false := by
        cases hc : containsKey s.cache k
        · rfl
        · exact absurd hc h
      simp [LRUCache.get, hf]

/-- Witness for C7: in a one-entry cache inserted at time 5, a `get` at
time 10 hits, returns the stored value, and leaves the entry
most-recently-used; the expiry map is untouched. -/
theorem C7_witness :
    ((⟨[("a", 7)], [("a", 5)], 1000, 300⟩ : LRUCache String Nat).get 10 "a").1
        = lookupKey [("a", 7)] "a" ∧
      (((⟨[("a", 7)], [("a", 5)], 1000, 300⟩ : LRUCache String Nat).get 10 "a").1).isSome
        = true ∧
      ((((⟨[("a", 7)], [("a", 5)], 1000, 300⟩ : LRUCache String Nat).get
          10 "a").2.cache.getLast?).map (·.1)) = some "a" ∧
      (((⟨[("a", 7)], [("a", 5)], 1000, 300⟩ : LRUCache String Nat).get
          10 "a").2.expiry) = [("a", 5)] :=
  (C7_get_ttl_semantics (⟨[("a", 7)], [("a", 5)], 1000, 300⟩ : LRUCache String Nat)
      10 "a").2.1 (by decide) (by decide)

/-! ## Cache map-consistency invariant: claim C10 -/

/-- Keys of an erasure form a sublist of the original keys. -/
theorem keys_eraseKey_sublist {K V : Type} [DecidableEq K] (l : List (K × V)) (k : K) :
    ((eraseKey l k).map (·.1)).Sublist (l.map (·.1)) :=
  (List.filter_sublist l).map (·.1)

/-- Erasure preserves duplicate-freedom of the key row. -/
theorem keys_eraseKey_nodup {K V : Type} [DecidableEq K] (l : List (K × V)) (k : K)
    (h : (l.map (·.1)).Nodup) : ((eraseKey l k).map (·.1)).Nodup :=
  h.sublist (keys_eraseKey_sublist l k)

/-- Containment distributes over append. -/
theorem containsKey_append {K V : Type} [DecidableEq K] (l1 l2 : List (K × V))
    (j : K) : containsKey (l1 ++ l2) j = (containsKey l1 j || containsKey l2 j) := by
  unfold containsKey
  rw [List.any_append]

/-- `moveToEnd` preserves each key's containment. -/
theorem containsKey_moveToEnd {K V : Type} [DecidableEq K] (l : List (K × V))
    (k j : K) : containsKey (moveToEnd l k) j = containsKey l j := by
  cases hc : containsKey l k with
  | false => rw [moveToEnd_of_not_contains l k hc]
  | true =>
      obtain ⟨v, _, hme⟩ := moveToEnd_of_contains l k hc
      rw [hme, containsKey_append]
      by_cases hj : j = k
      · rw [hj, containsKey_eraseKey_self, hc]
        simp [containsKey]
      · rw [containsKey_eraseKey_ne l k j hj]
        have hsing : containsKey [(k, v)] j = false := by
          simp [containsKey, Ne.symm hj]
        rw [hsing, Bool.or_false]

/-- `moveToEnd` preserves duplicate-freedom of the key row. -/
theorem keys_moveToEnd_nodup {K V : Type} [DecidableEq K] (l : List (K × V)) (k : K)
    (h : (l.map (·.1)).Nodup) : ((moveToEnd l k).map (·.1)).Nodup := by
  cases hc : containsKey l k with
  | false => rw [moveToEnd_of_not_contains l k hc]; exact h
  | true =>
      obtain ⟨v, _, hme⟩ := moveToEnd_of_contains l k hc
      rw [hme, List.map_append]
      rw [List.nodup_append]
      refine ⟨keys_eraseKey_nodup l k h, List.nodup_singleton k, ?_⟩
      intro a ha hb
      simp only [List.map_cons, List.map_nil, List.mem_singleton] at hb
      rw [hb] at ha
      have : containsKey (eraseKey l k) k = true :=
        (containsKey_iff_mem _ _).mpr ha
      rw [containsKey_eraseKey_self l k] at this
      exact Bool.noConfusion this

/-- Key row of a dictionary update. -/
theorem keys_dictSet {K V : Type} [DecidableEq K] (l : List (K × V)) (k : K) (v : V) :
    (dictSet l k v).map (·.1)
      = if containsKey l k then l.map (·.1) else l.map (·.1) ++ [k] := by
  unfold dictSet
  split
  · rw [List.map_map]
    have : ((fun p : K × V => p.1) ∘ fun p : K × V => if p.1 = k then (p.1, v) else p)
        = fun p : K × V => p.1 := by
      funext p
      by_cases hp : p.1 = k <;> simp [hp]
    rw [this]
  · rw [List.map_append]
    rfl

/-- A dictionary update preserves duplicate-freedom of the key row. -/
theorem keys_dictSet_nodup {K V : Type} [DecidableEq K] (l : List (K × V)) (k : K)
    (v : V) (h : (l.map (·.1)).Nodup) : ((dictSet l k v).map (·.1)).Nodup := by
  rw [keys_dictSet]
  split
  · exact h
  · next hc =>
      rw [List.nodup_append]
      refine ⟨h, List.nodup_singleton k, ?_⟩
      intro a ha hb
      simp only [List.mem_singleton] at hb
      rw [hb] at ha
      have : containsKey l k = true := (containsKey_iff_mem _ _).mpr ha
      simp [this] at hc

/-- Containment after a dictionary update. -/
theorem containsKey_dictSet {K V : Type} [DecidableEq K] (l : List (K × V))
    (k j : K) (v : V) :
    containsKey (dictSet l k v) j = (containsKey l j || decide (j = k)) := by
  rw [Bool.eq_iff_iff, containsKey_iff_mem, keys_dictSet, Bool.or_eq_true]
  split
  · next hc =>
      constructor
      · intro hmem
        exact Or.inl ((containsKey_iff_mem _ _).mpr hmem)
      · rintro (h1 | h1)
        · exact (containsKey_iff_mem _ _).mp h1
        · simp only [decide_eq_true_eq] at h1
          rw [h1]
          exact (containsKey_iff_mem _ _).mp hc
  · constructor
    · intro hmem
      rcases List.mem_append.mp hmem with h1 | h1
      · exact Or.inl ((containsKey_iff_mem _ _).mpr h1)
      · simp only [List.mem_singleton] at h1
        exact Or.inr (by simp [h1])
    · rintro (h1 | h1)
      · exact List.mem_append.mpr (Or.inl ((containsKey_iff_mem _ _).mp h1))
      · simp only [decide_eq_true_eq] at h1
        exact List.mem_append.mpr (Or.inr (by simp [h1]))

/-- Containment in a cons cell. -/
theorem containsKey_cons {K V : Type} [DecidableEq K] (p : K × V)
    (l : List (K × V)) (j : K) :
    containsKey (p :: l) j = (decide (p.1 = j) || containsKey l j) := by
  unfold containsKey
  rw [List.any_cons]

/-- C10: both cache operations preserve the invariant that the recency map
and the expiry map are duplicate-free and contain exactly the same keys:
`get` (either hitting, expiring, or missing) and `put` (with or without
eviction) keep the two key sets identical. -/
theorem C10_get_put_preserve_wf {K V : Type} [DecidableEq K] (s : LRUCache K V)
    (now : Nat) (k : K) (v : V) (h : s.WF) :
    ((s.get now k).2).WF ∧ (s.put now k v).WF := by
  obtain ⟨hn1, hn2, heq⟩ := h
  constructor
  · -- get
    by_cases hc : containsKey s.cache k = true
    · by_cases hexp : now - ((lookupKey s.expiry k).getD 0) > s.TTL
      · have hget : (s.get now k).2
            = { s with cache := eraseKey s.cache k, expiry := eraseKey s.expiry k } := by
          simp [LRUCache.get, hc, hexp]
        rw [hget]
        refine ⟨keys_eraseKey_nodup _ _ hn1, keys_eraseKey_nodup _ _ hn2, ?_⟩
        intro j
        by_cases hj : j = k
        · subst hj
          rw [containsKey_eraseKey_self, containsKey_eraseKey_self]
        · rw [containsKey_eraseKey_ne _ _ _ hj, containsKey_eraseKey_ne _ _ _ hj]
          exact heq j
      · have hget : (s.get now k).2 = { s with cache := moveToEnd s.cache k } := by
          simp [LRUCache.get, hc, hexp]
        rw [hget]
        refine ⟨keys_moveToEnd_nodup _ _ hn1, hn2, ?_⟩
        intro j
        rw [containsKey_moveToEnd]
        exact heq j
    · have hf : containsKey s.cache k = false := by
        cases hcc : containsKey s.cache k
        · rfl
        · exact absurd hcc hc
      have hget : (s.get now k).2 = s := by simp [LRUCache.get, hf]
      rw [hget]
      exact ⟨hn1, hn2, heq⟩
  · -- put
    have hc0keys : ∀ j,
        containsKey (if containsKey s.cache k then moveToEnd s.cache k else s.cache) j
          = containsKey s.cache j := by
      intro j
      split
      · rw [containsKey_moveToEnd]
      · rfl
    have hc0nodup :
        (((if containsKey s.cache k then moveToEnd s.cache k else s.cache)).map
          (·.1)).Nodup := by
      split
      · exact keys_moveToEnd_nodup _ _ hn1
      · exact hn1
    have hnod1 : ((dictSet
        (if containsKey s.cache k then moveToEnd s.cache k else s.cache) k v).map
        (·.1)).Nodup := keys_dictSet_nodup _ _ _ hc0nodup
    have hnode : ((dictSet s.expiry k now).map (·.1)).Nodup :=
      keys_dictSet_nodup _ _ _ hn2
    have hagree : ∀ j, containsKey (dictSet
          (if containsKey s.cache k then moveToEnd s.cache k else s.cache) k v) j
        = containsKey (dictSet s.expiry k now) j := by
      intro j
      rw [containsKey_dictSet, containsKey_dictSet, hc0keys j, heq j]
    by_cases hlen : (dictSet
        (if containsKey s.cache k then moveToEnd s.cache k else s.cache) k v).length
        > s.capacity
    · cases hc1 : dictSet
          (if containsKey s.cache k then moveToEnd s.cache k else s.cache) k v with
      | nil =>
          rw [hc1] at hlen
          simp only [List.length_nil] at hlen
          exact absurd hlen (by omega)
      | cons o rest =>
          have hput : s.put now k v
              = { s with cache := rest,
                         expiry := eraseKey (dictSet s.expiry k now) o.1 } := by
            unfold LRUCache.put
            dsimp only
            rw [hc1] at hlen ⊢
            rw [if_pos hlen]
          rw [hput]
          rw [hc1] at hnod1 hagree
          have hkeys : (o.1 :: rest.map (·.1)).Nodup := by simpa using hnod1
          have honotin : o.1 ∉ rest.map (·.1) := (List.nodup_cons.mp hkeys).1
          have hrestnodup : (rest.map (·.1)).Nodup := (List.nodup_cons.mp hkeys).2
          refine ⟨hrestnodup, keys_eraseKey_nodup _ _ hnode, ?_⟩
          intro j
          by_cases hj : j = o.1
          · rw [hj, containsKey_eraseKey_self]
            cases hcr : containsKey rest o.1
            · rfl
            · exact absurd ((containsKey_iff_mem _ _).mp hcr) honotin
          · rw [containsKey_eraseKey_ne _ _ _ hj]
            have h1 := hagree j
            rw [containsKey_cons] at h1
            have hdo : decide (o.1 = j) = false :=
              decide_eq_false (fun hh => hj hh.symm)
            rw [hdo, Bool.false_or] at h1
            exact h1
    · have hput : s.put now k v
          = { s with
              cache := dictSet
                (if containsKey s.cache k then moveToEnd s.cache k else s.cache) k v,
              expiry := dictSet s.expiry k now } := by
        unfold LRUCache.put
        dsimp only
        rw [if_neg hlen]
      rw [hput]
      exact ⟨hnod1, hnode, hagree⟩

/-- Witness for C10 at a concrete one-entry well-formed cache: the
invariant survives a hitting `get` and a fresh `put`. -/
theorem C10_witness :
    (((⟨[("a", 7)], [("a", 5)], 2, 300⟩ : LRUCache String Nat).get 10 "a").2).WF ∧
      ((⟨[("a", 7)], [("a", 5)], 2, 300⟩ : LRUCache String Nat).put 10 "a" 8).WF :=
  C10_get_put_preserve_wf (⟨[("a", 7)], [("a", 5)], 2, 300⟩ : LRUCache String Nat)
    10 "a" 8 ⟨by simp, by simp, fun _ => rfl⟩

/-! ## Cache capacity and retention: claim C6 -/

/-- A `put` of a key absent from the cache appends the new entry at the
most-recently-used end and, when the capacity is exceeded, evicts exactly
the least-recently-used (first) entry. -/
theorem put_fresh_cache {K V : Type} [DecidableEq K] (s : LRUCache K V)
    (now : Nat) (k : K) (v : V) (h : containsKey s.cache k = false) :
    (s.put now k v).cache =
      if s.cache.length + 1 > s.capacity then (s.cache ++ [(k, v)]).drop 1
      else s.cache ++ [(k, v)] := by
  have hcf : (containsKey s.cache k = true) = False := by
    rw [h]; simp
  have hc1 : dictSet (if containsKey s.cache k then moveToEnd s.cache k else s.cache)
      k v = s.cache ++ [(k, v)] := by
    rw [if_neg (by rw [hcf]; exact id)]
    unfold dictSet
    rw [if_neg (by rw [hcf]; exact id)]
  unfold LRUCache.put
  dsimp only
  rw [hc1, List.length_append]
  simp only [List.length_cons, List.length_nil, Nat.zero_add]
  by_cases hlen : s.cache.length + 1 > s.capacity
  · rw [if_pos hlen, if_pos hlen]
    cases hsc : s.cache ++ [(k, v)] with
    | nil => exact absurd hsc (by simp)
    | cons o rest => rfl
  · rw [if_neg hlen, if_neg hlen]

/-- The capacity field is never changed by `put`. -/
theorem put_capacity {K V : Type} [DecidableEq K] (s : LRUCache K V)
    (now : Nat) (k : K) (v : V) : (s.put now k v).capacity = s.capacity := by
  cases hc1 : dictSet (if containsKey s.cache k then moveToEnd s.cache k else s.cache)
      k v with
  | nil =>
      unfold LRUCache.put
      dsimp only
      rw [hc1]
      split <;> rfl
  | cons o rest =>
      unfold LRUCache.put
      dsimp only
      rw [hc1]
      split <;> rfl

/-- Folding `put` over pairwise-fresh keys keeps, in order, exactly the
last `capacity` entries of the accumulated sequence. -/
theorem foldl_put_fresh {K V : Type} [DecidableEq K] (now : Nat) :
    ∀ (kvs : List (K × V)) (s : LRUCache K V),
      (s.cache.map (·.1) ++ kvs.map (·.1)).Nodup →
      s.cache.length ≤ s.capacity →
      (kvs.foldl (fun t p => t.put now p.1 p.2) s).cache
        = (s.cache ++ kvs).drop (s.cache.length + kvs.length - s.capacity) := by
  intro kvs
  induction kvs with
  | nil =>
      intro s _ hle
      simp only [List.foldl_nil, List.append_nil, List.length_nil, Nat.add_zero]
      have : s.cache.length - s.capacity = 0 := by omega
      rw [this, List.drop_zero]
  | cons p rest ih =>
      intro s hnd hle
      have hfresh : containsKey s.cache p.1 = false := by
        cases hc : containsKey s.cache p.1
        · rfl
        · exfalso
          have hmem := (containsKey_iff_mem _ _).mp hc
          have hp1 : p.1 ∈ (p :: rest).map (·.1) := by simp
          have hdisj := List.disjoint_of_nodup_append hnd
          exact hdisj hmem hp1
      rw [List.foldl_cons]
      have hstep := put_fresh_cache s now p.1 p.2 hfresh
      have hcap := put_capacity s now p.1 p.2
      have hkeys : ((s.put now p.1 p.2).cache.map (·.1) ++ rest.map (·.1)).Nodup := by
        rw [hstep]
        split
        · next hgt =>
            have hsub : (((s.cache ++ [p]).drop 1).map (·.1) ++ rest.map (·.1)).Sublist
                ((s.cache ++ [p]).map (·.1) ++ rest.map (·.1)) :=
              List.Sublist.append (((s.cache ++ [p]).drop_sublist 1).map (·.1))
                (List.Sublist.refl _)
            refine List.Nodup.sublist hsub ?_
            rw [List.map_append]
            have hre : (s.cache.map (·.1) ++ [p].map (·.1)) ++ rest.map (·.1)
                = s.cache.map (·.1) ++ ((p :: rest).map (·.1)) := by
              simp
            rw [hre]
            exact hnd
        · next hgt =>
            rw [List.map_append]
            have hre : (s.cache.map (·.1) ++ [p].map (·.1)) ++ rest.map (·.1)
                = s.cache.map (·.1) ++ ((p :: rest).map (·.1)) := by
              simp
            rw [hre]
            exact hnd
      have hlen2 : (s.put now p.1 p.2).cache.length ≤ (s.put now p.1 p.2).capacity := by
        rw [hstep, hcap]
        split
        · next hgt =>
            rw [List.length_drop, List.length_append]
            simp only [List.length_cons, List.length_nil]
            omega
        · next hgt =>
            rw [List.length_append]
            simp only [List.length_cons, List.length_nil]
            omega
      have hres := ih (s.put now p.1 p.2) hkeys hlen2
      rw [hres, hstep, hcap]
      split
      · next hgt =>
          have h1 : s.cache.length + 1 - s.capacity = 1 := by omega
          rw [List.length_drop, List.length_append]
          simp only [List.length_cons, List.length_nil]
          have hd : ((s.cache ++ [p]).drop 1) ++ rest = (s.cache ++ p :: rest).drop 1 := by
            rw [← List.drop_append_of_le_length (by simp)]
            simp
          rw [hd, List.drop_drop]
          congr 1
          omega
      · next hgt =>
          have hd : (s.cache ++ [p]) ++ rest = s.cache ++ p :: rest := by simp
          rw [hd]
          congr 1
          simp only [List.length_append, List.length_cons, List.length_nil]
          omega

/-- C6: starting from an empty cache of any capacity, a sequence of `put`s
with pairwise-distinct keys leaves exactly `min N capacity` entries: the
cache rows are exactly the last `capacity` put pairs in put order (for
distinct fresh keys put order is touch order, head = least recently
used), and after every prefix of the sequence the size is at most the
capacity. -/
theorem C6_capacity_and_retention {K V : Type} [DecidableEq K] (cap : Nat)
    (kvs : List (K × V)) (now : Nat) (hnd : (kvs.map (·.1)).Nodup) :
    ((kvs.foldl (fun t p => t.put now p.1 p.2) (LRUCache.init K V cap)).cache.length
        = min kvs.length cap) ∧
    ((kvs.foldl (fun t p => t.put now p.1 p.2) (LRUCache.init K V cap)).cache
        = kvs.drop (kvs.length - cap)) ∧
    (∀ n, ((kvs.take n).foldl (fun t p => t.put now p.1 p.2)
        (LRUCache.init K V cap)).cache.length ≤ cap) := by
  have hmain : ∀ (l : List (K × V)), (l.map (·.1)).Nodup →
      (l.foldl (fun t p => t.put now p.1 p.2) (LRUCache.init K V cap)).cache
        = l.drop (l.length - cap) := by
    intro l hl
    have hf := foldl_put_fresh now l (LRUCache.init K V cap)
      (by simpa [LRUCache.init] using hl) (by simp [LRUCache.init])
    simpa [LRUCache.init] using hf
  refine ⟨?_, hmain kvs hnd, ?_⟩
  · rw [hmain kvs hnd, List.length_drop]
    omega
  · intro n
    have htake : ((kvs.take n).map (·.1)).Nodup :=
      hnd.sublist ((List.take_sublist n kvs).map _)
    rw [hmain (kvs.take n) htake, List.length_drop]
    omega

/-- Witness for C6: three distinct keys into a capacity-2 cache retain the
last two pairs in order, with sizes bounded by the capacity throughout. -/
theorem C6_witness :
    (([(1, 10), (2, 20), (3, 30)].foldl (fun t p => t.put 5 p.1 p.2)
        (LRUCache.init Nat Nat 2)).cache.length = min 3 2) ∧
    (([(1, 10), (2, 20), (3, 30)].foldl (fun t p => t.put 5 p.1 p.2)
        (LRUCache.init Nat Nat 2)).cache = [(2, 20), (3, 30)]) ∧
    ((([(1, 10), (2, 20), (3, 30)].take 2).foldl (fun t p => t.put 5 p.1 p.2)
        (LRUCache.init Nat Nat 2)).cache.length ≤ 2) := by
  have h := C6_capacity_and_retention 2 [(1, 10), (2, 20), (3, 30)] 5 (by decide)
  refine ⟨h.1, ?_, h.2.2 2⟩
  rw [h.2.1]
  rfl

/-! ## Forwarder emission paths: claims C1 and C2 -/

/-- A successful pick determines both components of `get_next_backend`:
the cursor ends at the picked index. -/
theorem get_next_backend_some (bs : List BackendServer) (cur i : Nat)
    (h : (LoadBalancer.get_next_backend bs cur).1 = some i) :
    LoadBalancer.get_next_backend bs cur = (some i, i) := by
  unfold LoadBalancer.get_next_backend at h ⊢
  cases hp : pickLoop bs cur cur bs.length with
  | none => rw [hp] at h; exact Option.noConfusion h
  | some j =>
      rw [hp] at h
      have hj : j = i := by simpa using h
      rw [hj]

/-- `get` never changes the capacity field. -/
theorem get_capacity {K V : Type} [DecidableEq K] (s : LRUCache K V) (now : Nat)
    (k : K) : ((s.get now k).2).capacity = s.capacity := by
  unfold LRUCache.get
  split
  · split
    · rfl
    · rfl
  · rfl

/-- After a `get` that misses, the key is absent from the post-state. -/
theorem get_none_not_contains {K V : Type} [DecidableEq K] (s : LRUCache K V)
    (now : Nat) (k : K) (h : (s.get now k).1 = none) :
    containsKey ((s.get now k).2).cache k = false := by
  by_cases hc : containsKey s.cache k = true
  · by_cases hexp : now - ((lookupKey s.expiry k).getD 0) > s.TTL
    · have hst : (s.get now k).2
          = { s with cache := eraseKey s.cache k, expiry := eraseKey s.expiry k } := by
        simp [LRUCache.get, hc, hexp]
      rw [hst]
      exact containsKey_eraseKey_self s.cache k
    · exfalso
      obtain ⟨v, hv, hme⟩ := moveToEnd_of_contains s.cache k hc
      have hfst : (s.get now k).1 = lookupKey (moveToEnd s.cache k) k := by
        simp [LRUCache.get, hc, hexp]
      rw [hfst, hme,
        lookupKey_append_right _ _ _ (containsKey_eraseKey_self s.cache k)] at h
      simp [lookupKey] at h
  · have hf : containsKey s.cache k = false := by
      cases hcc : containsKey s.cache k
      · rfl
      · exact absurd hcc hc
    have hst : (s.get now k).2 = s := by simp [LRUCache.get, hf]
    rw [hst]
    exact hf

/-- A `put` of an absent key into a cache with positive capacity makes the
key retrievable with exactly the stored value. -/
theorem put_fresh_lookup {K V : Type} [DecidableEq K] (s : LRUCache K V)
    (now : Nat) (k : K) (v : V) (h : containsKey s.cache k = false)
    (hcap : 0 < s.capacity) : lookupKey (s.put now k v).cache k = some v := by
  rw [put_fresh_cache s now k v h]
  split
  · next hgt =>
      cases hsc : s.cache with
      | nil =>
          rw [hsc] at hgt
          simp only [List.length_nil, Nat.zero_add] at hgt
          omega
      | cons q qs =>
          simp only [List.cons_append, List.drop_succ_cons, List.drop_zero]
          have hqs : containsKey qs k = false := by
            have hck := h
            rw [hsc, containsKey_cons] at hck
            cases hq : containsKey qs k
            · rfl
            · rw [hq, Bool.or_true] at hck
              exact Bool.noConfusion hck
          rw [lookupKey_append_right _ _ _ hqs]
          simp [lookupKey]
  · rw [lookupKey_append_right _ _ _ h]
    simp [lookupKey]

/-- One loop iteration on the cache-hit path: the cached status, the
cached headers minus hop-by-hop names, `X-Cache: HIT`, and the cached
body bytes emitted unchanged. -/
theorem proxyLoop_hit (digest : String → String)
    (world : Nat → Except PyErr UpstreamResponse) (req : Request) (now : Nat)
    (st : ProxyState) (fuel retries : Nat) (lastExc : Option PyErr)
    (bC uC i : Nat) (v : CacheVal)
    (hm : req.method = "GET")
    (hpick : (LoadBalancer.get_next_backend st.backends st.current).1 = some i)
    (hhit : (st.cache.get now (requestCacheKey digest req)).1 = some v) :
    proxyLoop digest world req now (fuel + 1) retries lastExc st bC uC
      = { emitted := .ok v.1 (filterHopByHop v.2.1 ++ [("X-Cache", "HIT")]) v.2.2,
          state := { cache := (st.cache.get now (requestCacheKey digest req)).2,
                     backends := st.backends, current := i },
          balancerCalls := bC + 1, upstreamCalls := uC } := by
  obtain ⟨vs, vh, vb⟩ := v
  have hpick2 := get_next_backend_some st.backends st.current i hpick
  simp only [requestCacheKey] at hhit ⊢
  rw [hm] at hhit
  simp only [proxyLoop, hpick2, hm, if_pos]
  simp only [hhit]

/-- One loop iteration on the GET cache-miss path with a successful
upstream call: the (possibly compressed) body is emitted with rewritten
headers, and the post-compression value is stored in the cache. -/
theorem proxyLoop_miss_get (digest : String → String)
    (world : Nat → Except PyErr UpstreamResponse) (req : Request) (now : Nat)
    (st : ProxyState) (fuel retries : Nat) (lastExc : Option PyErr)
    (bC uC i : Nat) (resp : UpstreamResponse)
    (hm : req.method = "GET")
    (hpick : (LoadBalancer.get_next_backend st.backends st.current).1 = some i)
    (hmiss : (st.cache.get now (requestCacheKey digest req)).1 = none)
    (hworld : world uC = .ok resp) :
    proxyLoop digest world req now (fuel + 1) retries lastExc st bC uC
      = { emitted := .ok resp.status
            (missHeaders req resp ((st.backends.getD i default).url) retries)
            (missBody req resp),
          state := { cache := ((st.cache.get now (requestCacheKey digest req)).2).put
                       now (requestCacheKey digest req)
                       (resp.status, resp.headers, missBody req resp),
                     backends := st.backends, current := i },
          balancerCalls := bC + 1, upstreamCalls := uC + 1 } := by
  have hpick2 := get_next_backend_some st.backends st.current i hpick
  simp only [requestCacheKey, missHeaders, missBody] at hmiss ⊢
  rw [hm] at hmiss
  simp only [proxyLoop, hpick2, hm, if_pos]
  simp only [hmiss, hworld]

/-- One loop iteration on the non-GET path with a successful upstream
call: same emission, but the cache is neither read nor written. -/
theorem proxyLoop_miss_other (digest : String → String)
    (world : Nat → Except PyErr UpstreamResponse) (req : Request) (now : Nat)
    (st : ProxyState) (fuel retries : Nat) (lastExc : Option PyErr)
    (bC uC i : Nat) (resp : UpstreamResponse)
    (hm : ¬(req.method = "GET"))
    (hpick : (LoadBalancer.get_next_backend st.backends st.current).1 = some i)
    (hworld : world uC = .ok resp) :
    proxyLoop digest world req now (fuel + 1) retries lastExc st bC uC
      = { emitted := .ok resp.status
            (missHeaders req resp ((st.backends.getD i default).url) retries)
            (missBody req resp),
          state := { cache := st.cache, backends := st.backends, current := i },
          balancerCalls := bC + 1, upstreamCalls := uC + 1 } := by
  have hpick2 := get_next_backend_some st.backends st.current i hpick
  simp only [missHeaders, missBody]
  simp only [proxyLoop, hpick2, if_neg hm]
  simp only [hworld]

/-- C1 (amended): for a GET whose cache lookup misses and whose upstream
call succeeds, the value stored in the cache pairs the upstream status and
headers with the body AFTER compression under the request's negotiated
encoding (exactly the bytes written to the client); and on a later cache
hit the emitted body is the cached body unchanged — the Compressor is not
re-applied on the hit path (the cache key's encoding component guarantees
the hitting request negotiated the same encoding). -/
theorem C1_amended_cache_stores_compressed (digest : String → String)
    (world : Nat → Except PyErr UpstreamResponse) (req : Request) (now : Nat)
    (st : ProxyState) (i : Nat) (resp : UpstreamResponse)
    (hm : req.method = "GET")
    (hpick : (LoadBalancer.get_next_backend st.backends st.current).1 = some i)
    (hmiss : (st.cache.get now (requestCacheKey digest req)).1 = none)
    (hworld : world 0 = .ok resp)
    (hcap : 0 < st.cache.capacity) :
    (lookupKey (proxy_request digest world req now st).state.cache.cache
        (requestCacheKey digest req)
      = some (resp.status, resp.headers, missBody req resp)) ∧
    (∀ (st2 : ProxyState) (j : Nat) (v : CacheVal),
      (LoadBalancer.get_next_backend st2.backends st2.current).1 = some j →
      (st2.cache.get now (requestCacheKey digest req)).1 = some v →
      (proxy_request digest world req now st2).emitted
        = .ok v.1 (filterHopByHop v.2.1 ++ [("X-Cache", "HIT")]) v.2.2) := by
  constructor
  · have hrun := proxyLoop_miss_get digest world req now st 2 0 none 0 0 i resp
      hm hpick hmiss hworld
    show lookupKey
      (proxyLoop digest world req now (2 + 1) 0 none st 0 0).state.cache.cache _ = _
    rw [hrun]
    apply put_fresh_lookup
    · exact get_none_not_contains st.cache now _ hmiss
    · rw [get_capacity]
      exact hcap
  · intro st2 j v hp2 hh2
    have hrun := proxyLoop_hit digest world req now st2 2 0 none 0 0 j v hm hp2 hh2
    show (proxyLoop digest world req now (2 + 1) 0 none st2 0 0).emitted = _
    rw [hrun]

/-- Counterexample to C1 as stated: on the concrete gzip GET the upstream
body is `[104, 105]`, yet the cached value's body is its compression
`[31, 139, 104, 105]` — the post-compression bytes, not the
pre-compression upstream body — and the later hit emits those cached
bytes unchanged instead of passing them through the Compressor (which
would have produced `[31, 139, 31, 139, 104, 105]`). -/
theorem C1_counterexample :
    (lookupKey missOutcome.state.cache.cache "GET|/a|gzip"
        = some (200, [("Content-Length", "2")], [31, 139, 104, 105])) ∧
    (([31, 139, 104, 105] : List Nat) ≠ upstreamHi.body) ∧
    (hitOutcome.emitted
        = .ok 200 [("Content-Length", "2"), ("X-Cache", "HIT")] [31, 139, 104, 105]) ∧
    (([31, 139, 104, 105] : List Nat)
        ≠ compress_content [31, 139, 104, 105]
            (get_accepted_encoding reqGzip.headers)) := by
  refine ⟨by decide, by decide, by decide, by decide⟩

/-- Witness for the amended C1 at the concrete gzip fixture. -/
theorem C1_amended_witness :
    (lookupKey (proxy_request id worldHi reqGzip 5 stHealthy).state.cache.cache
        (requestCacheKey id reqGzip)
      = some (upstreamHi.status, upstreamHi.headers, missBody reqGzip upstreamHi)) ∧
    ((proxy_request id worldHi reqGzip 5
        (proxy_request id worldHi reqGzip 5 stHealthy).state).emitted
      = .ok 200 (filterHopByHop [("Content-Length", "2")] ++ [("X-Cache", "HIT")])
          [31, 139, 104, 105]) := by
  have h := C1_amended_cache_stores_compressed id worldHi reqGzip 5 stHealthy 0
    upstreamHi rfl (by decide) (by decide) rfl (by decide)
  refine ⟨h.1, ?_⟩
  exact h.2 (proxy_request id worldHi reqGzip 5 stHealthy).state 0
    (200, [("Content-Length", "2")], [31, 139, 104, 105]) (by decide) (by decide)

/-- C2 (amended): on every cache-miss response (GET or otherwise) the
emitted headers contain a `Content-Length` entry whose value is the byte
length of the exact body written; but on a cache hit the proxy forwards
the cached upstream headers (hop-by-hop filtered) plus `X-Cache: HIT`
without setting or rewriting `Content-Length`, so the claimed equality
holds on hits only when the cached upstream headers happen to state it. -/
theorem C2_amended_content_length (digest : String → String)
    (world : Nat → Except PyErr UpstreamResponse) (req : Request) (now : Nat)
    (st : ProxyState) (i : Nat) (resp : UpstreamResponse)
    (hpick : (LoadBalancer.get_next_backend st.backends st.current).1 = some i)
    (hnohit : req.method = "GET" →
      (st.cache.get now (requestCacheKey digest req)).1 = none)
    (hworld : world 0 = .ok resp) :
    (∃ hdrs body, (proxy_request digest world req now st).emitted
        = .ok resp.status hdrs body ∧
        ("Content-Length", toString body.length) ∈ hdrs) ∧
    (∀ (st2 : ProxyState) (j : Nat) (v : CacheVal),
      (LoadBalancer.get_next_backend st2.backends st2.current).1 = some j →
      req.method = "GET" →
      (st2.cache.get now (requestCacheKey digest req)).1 = some v →
      (proxy_request digest world req now st2).emitted
        = .ok v.1 (filterHopByHop v.2.1 ++ [("X-Cache", "HIT")]) v.2.2) := by
  constructor
  · refine ⟨missHeaders req resp ((st.backends.getD i default).url) 0,
      missBody req resp, ?_, ?_⟩
    · by_cases hm : req.method = "GET"
      · have hrun := proxyLoop_miss_get digest world req now st 2 0 none 0 0 i resp
          hm hpick (hnohit hm) hworld
        show (proxyLoop digest world req now (2 + 1) 0 none st 0 0).emitted = _
        rw [hrun]
      · have hrun := proxyLoop_miss_other digest world req now st 2 0 none 0 0 i resp
          hm hpick hworld
        show (proxyLoop digest world req now (2 + 1) 0 none st 0 0).emitted = _
        rw [hrun]
    · unfold missHeaders
      simp [List.mem_append]
  · intro st2 j v hp2 hm hh2
    have hrun := proxyLoop_hit digest world req now st2 2 0 none 0 0 j v hm hp2 hh2
    show (proxyLoop digest world req now (2 + 1) 0 none st2 0 0).emitted = _
    rw [hrun]

/-- Counterexample to C2 as stated: the concrete cache hit emits the
cached upstream header `Content-Length: 2` while writing the 4-byte
compressed body, and no `Content-Length: 4` header is present. -/
theorem C2_counterexample :
    (hitOutcome.emitted
      = .ok 200 [("Content-Length", "2"), ("X-Cache", "HIT")] [31, 139, 104, 105]) ∧
    (("Content-Length", "2")
      ∈ ([("Content-Length", "2"), ("X-Cache", "HIT")] : List (String × String))) ∧
    (toString ([31, 139, 104, 105] : List Nat).length = "4") ∧
    (("Content-Length", "4")
      ∉ ([("Content-Length", "2"), ("X-Cache", "HIT")] : List (String × String))) := by
  refine ⟨by decide, by decide, by decide, by decide⟩

/-- Witness for the amended C2 at the concrete gzip fixture. -/
theorem C2_amended_witness :
    (∃ hdrs body, (proxy_request id worldHi reqGzip 5 stHealthy).emitted
        = .ok upstreamHi.status hdrs body ∧
        ("Content-Length", toString body.length) ∈ hdrs) ∧
    ((proxy_request id worldHi reqGzip 5
        (proxy_request id worldHi reqGzip 5 stHealthy).state).emitted
      = .ok 200 (filterHopByHop [("Content-Length", "2")] ++ [("X-Cache", "HIT")])
          [31, 139, 104, 105]) := by
  have h := C2_amended_content_length id worldHi reqGzip 5 stHealthy 0 upstreamHi
    (by decide) (fun _ => by decide) rfl
  refine ⟨h.1, ?_⟩
  exact h.2 (proxy_request id worldHi reqGzip 5 stHealthy).state 0
    (200, [("Content-Length", "2")], [31, 139, 104, 105]) (by decide) rfl (by decide)

/-! ## Fingerprinter: claim C9 -/

/-- Right cancellation for string append. -/
theorem strAppend_right_cancel (a b c : String) (h : a ++ c = b ++ c) : a = b := by
  apply String.ext
  have hd := congrArg String.data h
  rw [String.data_append, String.data_append] at hd
  exact List.append_cancel_right hd

/-- Left cancellation for string append. -/
theorem strAppend_left_cancel (a b c : String) (h : a ++ b = a ++ c) : b = c := by
  apply String.ext
  have hd := congrArg String.data h
  rw [String.data_append, String.data_append] at hd
  exact List.append_cancel_left hd

/-- `joinBar` on a cons with a non-empty tail. -/
theorem joinBar_cons (s : String) (rest : List String) (h : rest ≠ []) :
    joinBar (s :: rest) = s ++ "|" ++ joinBar rest := by
  cases rest with
  | nil => exact absurd rfl h
  | cons t ts => rfl

/-- `joinBar` is injective in any single component when the surrounding
components are fixed. -/
theorem joinBar_middle_inj : ∀ (xs : List String) (a b : String) (ys : List String),
    joinBar (xs ++ a :: ys) = joinBar (xs ++ b :: ys) → a = b := by
  intro xs
  induction xs with
  | nil =>
      intro a b ys h
      cases ys with
      | nil => simpa [joinBar] using h
      | cons y ts =>
          rw [List.nil_append, List.nil_append] at h
          rw [joinBar_cons a (y :: ts) (by simp),
            joinBar_cons b (y :: ts) (by simp)] at h
          have h1 := strAppend_right_cancel (a ++ "|") (b ++ "|") (joinBar (y :: ts)) h
          exact strAppend_right_cancel a b "|" h1
  | cons x txs ih =>
      intro a b ys h
      rw [List.cons_append, List.cons_append] at h
      rw [joinBar_cons x (txs ++ a :: ys) (by simp),
        joinBar_cons x (txs ++ b :: ys) (by simp)] at h
      exact ih a b ys (strAppend_left_cancel (x ++ "|") _ _ h)

/-- Appending one more component strictly lengthens a non-empty join. -/
theorem joinBar_length_lt (a : String) : ∀ (xs : List String), xs ≠ [] →
    (joinBar xs).length < (joinBar (xs ++ [a])).length := by
  intro xs
  induction xs with
  | nil => intro h; exact absurd rfl h
  | cons x txs ih =>
      intro _
      have hbar : ("|" : String).length = 1 := rfl
      cases htxs : txs with
      | nil =>
          show (joinBar [x]).length < (joinBar [x, a]).length
          rw [joinBar_cons x [a] (by simp)]
          rw [String.length_append, String.length_append]
          show x.length < x.length + 1 + a.length
          omega
      | cons y ts =>
          rw [List.cons_append, List.cons_append,
            joinBar_cons x (y :: (ts ++ [a])) (by simp),
            joinBar_cons x (y :: ts) (by simp),
            String.length_append, String.length_append,
            String.length_append, String.length_append]
          have hih := ih (by simp [htxs])
          rw [htxs, List.cons_append] at hih
          omega

/-- A join with an extra trailing component differs from the join without
it, provided at least one component precedes. -/
theorem joinBar_append_ne (xs : List String) (a : String) (h : xs ≠ []) :
    joinBar (xs ++ [a]) ≠ joinBar xs := by
  intro he
  have hlt := joinBar_length_lt a xs h
  rw [he] at hlt
  omega

/-- `Char.ofNat` round-trips on byte values. -/
theorem charOfNat_byte_toNat (n : Nat) (h : n < 256) : (Char.ofNat n).toNat = n := by
  have hv : n.isValidChar := Or.inl (by omega)
  unfold Char.ofNat
  rw [dif_pos hv]
  simp [Char.ofNatAux, Char.toNat, UInt32.toNat, BitVec.ofNatLt]

/-- The modelled `str()` is injective on byte sequences, as the real
`str(bytes)` is. -/
theorem pyStrBytes_inj : ∀ (b1 b2 : List Nat), (∀ x ∈ b1, x < 256) →
    (∀ x ∈ b2, x < 256) → pyStrBytes b1 = pyStrBytes b2 → b1 = b2 := by
  intro b1
  induction b1 with
  | nil =>
      intro b2 _ _ h
      cases b2 with
      | nil => rfl
      | cons y ys =>
          have hd : ([] : List Nat).map Char.ofNat = (y :: ys).map Char.ofNat :=
            congrArg String.data h
          simp at hd
  | cons x xs ih =>
      intro b2 h1 h2 h
      cases b2 with
      | nil =>
          have hd : (x :: xs).map Char.ofNat = ([] : List Nat).map Char.ofNat :=
            congrArg String.data h
          simp at hd
      | cons y ys =>
          have hd : (x :: xs).map Char.ofNat = (y :: ys).map Char.ofNat :=
            congrArg String.data h
          simp only [List.map_cons, List.cons.injEq] at hd
          have hx : x = y := by
            have hc := congrArg Char.toNat hd.1
            rw [charOfNat_byte_toNat x (h1 x (by simp)),
              charOfNat_byte_toNat y (h2 y (by simp))] at hc
            exact hc
          have ht : xs = ys := by
            apply ih ys (fun z hz => h1 z (by simp [hz]))
              (fun z hz => h2 z (by simp [hz]))
            exact congrArg String.mk hd.2
          rw [hx, ht]

/-- The modelled `str()` of a non-empty byte sequence is non-empty. -/
theorem pyStrBytes_ne_empty (bs : List Nat) (h : bs ≠ []) : pyStrBytes bs ≠ "" := by
  intro he
  unfold pyStrBytes at he
  have hd : bs.map Char.ofNat = ([] : List Char) := congrArg String.data he
  rw [List.map_eq_nil_iff] at hd
  exact h hd

/-- Containment is invariant under permutation of the dictionary rows. -/
theorem containsKey_perm {K V : Type} [DecidableEq K] {l1 l2 : List (K × V)}
    (h : l1.Perm l2) (k : K) : containsKey l1 k = containsKey l2 k := by
  rw [Bool.eq_iff_iff, containsKey_iff_mem, containsKey_iff_mem]
  exact (h.map (·.1)).mem_iff

/-- With duplicate-free keys, membership determines the lookup result. -/
theorem lookup_eq_of_mem_nodup {K V : Type} [DecidableEq K] :
    ∀ (l : List (K × V)) (k : K) (v : V), (l.map (·.1)).Nodup → (k, v) ∈ l →
      lookupKey l k = some v := by
  intro l
  induction l with
  | nil => intro k v _ hm; exact absurd hm (List.not_mem_nil _)
  | cons q t ih =>
      intro k v hnd hm
      simp only [List.map_cons] at hnd
      have hhead := (List.nodup_cons.mp hnd).1
      have htail := (List.nodup_cons.mp hnd).2
      by_cases hq : q.1 = k
      · have hqv : q = (k, v) := by
          rcases List.mem_cons.mp hm with hh | ht
          · exact hh.symm
          · exfalso
            have hk : k ∈ t.map (·.1) := List.mem_map.mpr ⟨(k, v), ht, rfl⟩
            rw [hq] at hhead
            exact hhead hk
        unfold lookupKey
        rw [List.find?_cons_of_pos _ (by simpa using hq), hqv]
        rfl
      · unfold lookupKey
        rw [List.find?_cons_of_neg _ (by simpa using hq)]
        apply ih k v htail
        rcases List.mem_cons.mp hm with hh | ht
        · exfalso
          rw [← hh] at hq
          exact hq rfl
        · exact ht

/-- Lookup is invariant under permutation for duplicate-free keys. -/
theorem lookupKey_perm {K V : Type} [DecidableEq K] {l1 l2 : List (K × V)}
    (h : l1.Perm l2) (hnd : (l1.map (·.1)).Nodup) (k : K) :
    lookupKey l1 k = lookupKey l2 k := by
  have hnd2 : (l2.map (·.1)).Nodup := (h.map (·.1)).nodup_iff.mp hnd
  cases hl : lookupKey l1 k with
  | none =>
      have hc : containsKey l1 k = false := by
        have hiso := lookupKey_isSome_eq l1 k
        rw [hl] at hiso
        exact hiso.symm
      rw [lookupKey_of_not_contains l2 k (by rw [← containsKey_perm h k]; exact hc)]
  | some v =>
      obtain ⟨p, hp⟩ : ∃ p, l1.find? (fun q => decide (q.1 = k)) = some p := by
        unfold lookupKey at hl
        cases hf : l1.find? (fun q => decide (q.1 = k)) with
        | none => rw [hf] at hl; exact Option.noConfusion hl
        | some p => exact ⟨p, rfl⟩
      have hpk : p.1 = k := by simpa using List.find?_some hp
      have hpv : p.2 = v := by
        unfold lookupKey at hl
        rw [hp] at hl
        simpa using hl
      have hmem : (k, v) ∈ l1 := by
        have hpm := List.mem_of_find?_eq_some hp
        have hpe : p = (k, v) := Prod.ext hpk hpv
        rw [← hpe]
        exact hpm
      rw [lookup_eq_of_mem_nodup l2 k v hnd2 (h.mem_iff.mp hmem)]

/-- The sorted key row depends only on the key multiset. -/
theorem insertionSort_perm_eq (l1 l2 : List String) (h : l1.Perm l2) :
    l1.insertionSort headerNameLe = l2.insertionSort headerNameLe :=
  List.eq_of_perm_of_sorted
    ((List.perm_insertionSort _ l1).trans
      (h.trans (List.perm_insertionSort _ l2).symm))
    (List.sorted_insertionSort _ l1) (List.sorted_insertionSort _ l2)

/-- Filtering commutes with sorting. -/
theorem filter_insertionSort_comm (l : List String) (p : String → Bool) :
    (l.insertionSort headerNameLe).filter p
      = (l.filter p).insertionSort headerNameLe :=
  List.eq_of_perm_of_sorted
    (((List.perm_insertionSort headerNameLe l).filter p).trans
      (List.perm_insertionSort _ (l.filter p)).symm)
    ((List.sorted_insertionSort _ l).filter p)
    (List.sorted_insertionSort _ (l.filter p))

/-- If two joins agree and their component lists differ only at one fixed
position, the formatters agree at that position's name. -/
theorem joinBar_parts_inj (m p e : String) (C F xs ys : List String) (nm : String)
    (f1 f2 : String → String)
    (hsplit : F = xs ++ nm :: ys)
    (hagree : ∀ n, n ∈ xs ∨ n ∈ ys → f1 n = f2 n)
    (h : joinBar ([m, p, e] ++ F.map f1 ++ C)
        = joinBar ([m, p, e] ++ F.map f2 ++ C)) :
    f1 nm = f2 nm := by
  subst hsplit
  rw [List.map_append, List.map_cons, List.map_append, List.map_cons] at h
  have hglue : ∀ (g : String → String) (gm : String),
      [m, p, e] ++ (xs.map g ++ gm :: ys.map g) ++ C
        = ([m, p, e] ++ xs.map g) ++ gm :: (ys.map g ++ C) := by
    intro g gm
    simp
  rw [hglue f1 (f1 nm), hglue f2 (f2 nm)] at h
  have hxs : xs.map f1 = xs.map f2 :=
    List.map_congr_left (fun n hn => hagree n (Or.inl hn))
  have hys : ys.map f1 = ys.map f2 :=
    List.map_congr_left (fun n hn => hagree n (Or.inr hn))
  rw [hxs, hys] at h
  exact joinBar_middle_inj ([m, p, e] ++ xs.map f2) _ _ (ys.map f2 ++ C) h

/-- Changing the value of a relevant header (one whose lowercased name is
`accept` or `content-type`) is visible in the cache key string. -/
theorem cacheKeyString_value_inj (nm : String)
    (hrel : relevantHeaderNames.contains (strLower nm) = true)
    (m p e : String) (b : Option (List Nat)) (hs : List (String × String))
    (hnd : (hs.map (·.1)).Nodup) (hfresh : containsKey hs nm = false)
    (v1 v2 : String)
    (h : cacheKeyString m p ((nm, v1) :: hs) b e
        = cacheKeyString m p ((nm, v2) :: hs) b e) : v1 = v2 := by
  have hnm_not : nm ∉ hs.map (·.1) := by
    intro hmem
    have hc := (containsKey_iff_mem hs nm).mpr hmem
    rw [hfresh] at hc
    exact Bool.noConfusion hc
  have hkeysnd : (nm :: hs.map (·.1)).Nodup := List.nodup_cons.mpr ⟨hnm_not, hnd⟩
  have hsortnd : ((nm :: hs.map (·.1)).insertionSort headerNameLe).Nodup :=
    (List.perm_insertionSort headerNameLe _).nodup_iff.mpr hkeysnd
  have hFnd : (((nm :: hs.map (·.1)).insertionSort headerNameLe).filter
      (fun n => relevantHeaderNames.contains (strLower n))).Nodup := hsortnd.filter _
  have hmemF : nm ∈ ((nm :: hs.map (·.1)).insertionSort headerNameLe).filter
      (fun n => relevantHeaderNames.contains (strLower n)) := by
    rw [List.mem_filter]
    exact ⟨(List.perm_insertionSort headerNameLe _).mem_iff.mpr (by simp), hrel⟩
  obtain ⟨xs, ys, hsplit⟩ := List.append_of_mem hmemF
  have hxs_not : nm ∉ xs ∧ nm ∉ ys := by
    rw [hsplit, List.nodup_append] at hFnd
    exact ⟨fun hx => hFnd.2.2 hx (by simp), (List.nodup_cons.mp hFnd.2.1).1⟩
  have h' : joinBar ([m, p, e]
        ++ ((((nm :: hs.map (·.1)).insertionSort headerNameLe).filter
              (fun n => relevantHeaderNames.contains (strLower n))).map
            (fun n => n ++ ":" ++ ((lookupKey ((nm, v1) :: hs) n).getD "")))
        ++ bodyParts b)
      = joinBar ([m, p, e]
        ++ ((((nm :: hs.map (·.1)).insertionSort headerNameLe).filter
              (fun n => relevantHeaderNames.contains (strLower n))).map
            (fun n => n ++ ":" ++ ((lookupKey ((nm, v2) :: hs) n).getD "")))
        ++ bodyParts b) := h
  have hagree : ∀ n, n ∈ xs ∨ n ∈ ys →
      (fun n => n ++ ":" ++ ((lookupKey ((nm, v1) :: hs) n).getD "")) n
        = (fun n => n ++ ":" ++ ((lookupKey ((nm, v2) :: hs) n).getD "")) n := by
    intro n hn
    have hne : nm ≠ n := by
      intro he
      rcases hn with hx | hy
      · exact hxs_not.1 (he ▸ hx)
      · exact hxs_not.2 (he ▸ hy)
    have e1 : lookupKey ((nm, v1) :: hs) n = lookupKey hs n := by
      unfold lookupKey
      rw [List.find?_cons_of_neg _ (by simp [hne])]
    have e2 : lookupKey ((nm, v2) :: hs) n = lookupKey hs n := by
      unfold lookupKey
      rw [List.find?_cons_of_neg _ (by simp [hne])]
    simp only
    rw [e1, e2]
  have hval := joinBar_parts_inj m p e _ _ xs ys nm _ _ hsplit hagree h'
  have hl1 : lookupKey ((nm, v1) :: hs) nm = some v1 := by
    unfold lookupKey
    rw [List.find?_cons_of_pos _ (by simp)]
    rfl
  have hl2 : lookupKey ((nm, v2) :: hs) nm = some v2 := by
    unfold lookupKey
    rw [List.find?_cons_of_pos _ (by simp)]
    rfl
  rw [hl1, hl2] at hval
  simp only [Option.getD_some] at hval
  exact strAppend_left_cancel (nm ++ ":") v1 v2 hval

/-- Changing the first of the three leading key components is visible. -/
theorem joinBar_first_inj (x1 x2 p e : String) (R : List String)
    (h : joinBar ([x1, p, e] ++ R) = joinBar ([x2, p, e] ++ R)) : x1 = x2 :=
  joinBar_middle_inj [] x1 x2 (p :: e :: R) h

/-- Changing the second of the three leading key components is visible. -/
theorem joinBar_second_inj (m x1 x2 e : String) (R : List String)
    (h : joinBar ([m, x1, e] ++ R) = joinBar ([m, x2, e] ++ R)) : x1 = x2 :=
  joinBar_middle_inj [m] x1 x2 (e :: R) h

/-- Changing the third of the three leading key components is visible. -/
theorem joinBar_third_inj (m p x1 x2 : String) (R : List String)
    (h : joinBar ([m, p, x1] ++ R) = joinBar ([m, p, x2] ++ R)) : x1 = x2 :=
  joinBar_middle_inj [m, p] x1 x2 R h

/-- C9: the cache key is invariant under permuting header insertion order
and under adding (equivalently, removing) a header whose lowercased name
is neither `accept` nor `content-type`; and changing the method, the
path, the encoding, the body, the `Accept` value, or the `Content-Type`
value changes the key.  `digest` abstracts the final MD5 hex digest;
invariance holds for any digest, distinctness for any injective one (MD5
is injective on every input set without a collision). -/
theorem C9_fingerprint_key (digest : String → String)
    (hinj : Function.Injective digest) :
    (∀ (m p e : String) (b : Option (List Nat))
        (hs1 hs2 : List (String × String)), hs1.Perm hs2 →
      (hs1.map (·.1)).Nodup →
      generate_cache_key digest m p hs1 b e
        = generate_cache_key digest m p hs2 b e) ∧
    (∀ (m p e : String) (b : Option (List Nat)) (hs : List (String × String))
        (nm v : String),
      relevantHeaderNames.contains (strLower nm) = false →
      generate_cache_key digest m p (hs ++ [(nm, v)]) b e
        = generate_cache_key digest m p hs b e) ∧
    (∀ (m1 m2 p e : String) (b : Option (List Nat))
        (hs : List (String × String)), m1 ≠ m2 →
      generate_cache_key digest m1 p hs b e
        ≠ generate_cache_key digest m2 p hs b e) ∧
    (∀ (m p1 p2 e : String) (b : Option (List Nat))
        (hs : List (String × String)), p1 ≠ p2 →
      generate_cache_key digest m p1 hs b e
        ≠ generate_cache_key digest m p2 hs b e) ∧
    (∀ (m p e1 e2 : String) (b : Option (List Nat))
        (hs : List (String × String)), e1 ≠ e2 →
      generate_cache_key digest m p hs b e1
        ≠ generate_cache_key digest m p hs b e2) ∧
    (∀ (m p e : String) (hs : List (String × String))
        (b1 b2 : Option (List Nat)), bodyOk b1 → bodyOk b2 →
      bodyBytes b1 → bodyBytes b2 → b1 ≠ b2 →
      generate_cache_key digest m p hs b1 e
        ≠ generate_cache_key digest m p hs b2 e) ∧
    (∀ (m p e : String) (b : Option (List Nat)) (hs : List (String × String))
        (v1 v2 : String), (hs.map (·.1)).Nodup →
      containsKey hs "Accept" = false → v1 ≠ v2 →
      generate_cache_key digest m p (("Accept", v1) :: hs) b e
        ≠ generate_cache_key digest m p (("Accept", v2) :: hs) b e) ∧
    (∀ (m p e : String) (b : Option (List Nat)) (hs : List (String × String))
        (v1 v2 : String), (hs.map (·.1)).Nodup →
      containsKey hs "Content-Type" = false → v1 ≠ v2 →
      generate_cache_key digest m p (("Content-Type", v1) :: hs) b e
        ≠ generate_cache_key digest m p (("Content-Type", v2) :: hs) b e) := by
  refine ⟨?_, ?_, ?_, ?_, ?_, ?_, ?_, ?_⟩
  · intro m p e b hs1 hs2 hperm hnd
    have hkeys : (hs1.map (·.1)).Perm (hs2.map (·.1)) := hperm.map _
    have hsort : (hs1.map (·.1)).insertionSort headerNameLe
        = (hs2.map (·.1)).insertionSort headerNameLe :=
      insertionSort_perm_eq _ _ hkeys
    have hlook : ∀ n, lookupKey hs1 n = lookupKey hs2 n := lookupKey_perm hperm hnd
    simp only [generate_cache_key, cacheKeyString]
    rw [hsort, List.map_congr_left
      (fun n _ => by rw [hlook n] :
        ∀ n ∈ ((hs2.map (·.1)).insertionSort headerNameLe).filter
          (fun n => relevantHeaderNames.contains (strLower n)),
        n ++ ":" ++ ((lookupKey hs1 n).getD "")
          = n ++ ":" ++ ((lookupKey hs2 n).getD ""))]
  · intro m p e b hs nm v hirrel
    simp only [generate_cache_key, cacheKeyString]
    congr 1
    rw [List.map_append]
    rw [filter_insertionSort_comm, filter_insertionSort_comm]
    have hnil : (List.map (fun x : String × String => x.1) [(nm, v)]).filter
        (fun n => relevantHeaderNames.contains (strLower n)) = [] := by
      show List.filter (fun n => relevantHeaderNames.contains (strLower n)) [nm] = []
      rw [List.filter_cons, hirrel]
      simp
    rw [List.filter_append, hnil, List.append_nil]
    have hmap : ∀ n ∈ ((hs.map (·.1)).filter
        (fun n => relevantHeaderNames.contains (strLower n))).insertionSort
          headerNameLe,
        n ++ ":" ++ ((lookupKey (hs ++ [(nm, v)]) n).getD "")
          = n ++ ":" ++ ((lookupKey hs n).getD "") := by
      intro n hn
      have hnmem : n ∈ (hs.map (·.1)).filter
          (fun n => relevantHeaderNames.contains (strLower n)) :=
        (List.perm_insertionSort headerNameLe _).mem_iff.mp hn
      have hkey : n ∈ hs.map (·.1) := (List.mem_filter.mp hnmem).1
      have hcont : containsKey hs n = true := (containsKey_iff_mem hs n).mpr hkey
      rw [lookupKey_append_left hs [(nm, v)] n hcont]
    rw [List.map_congr_left hmap]
  · intro m1 m2 p e b hs hne heq
    exact hne (joinBar_first_inj m1 m2 p e
      (((((hs.map (·.1)).insertionSort headerNameLe).filter
          (fun n => relevantHeaderNames.contains (strLower n))).map
          (fun n => n ++ ":" ++ ((lookupKey hs n).getD ""))) ++ bodyParts b)
      (hinj heq))
  · intro m p1 p2 e b hs hne heq
    exact hne (joinBar_second_inj m p1 p2 e
      (((((hs.map (·.1)).insertionSort headerNameLe).filter
          (fun n => relevantHeaderNames.contains (strLower n))).map
          (fun n => n ++ ":" ++ ((lookupKey hs n).getD ""))) ++ bodyParts b)
      (hinj heq))
  · intro m p e1 e2 b hs hne heq
    exact hne (joinBar_third_inj m p e1 e2
      (((((hs.map (·.1)).insertionSort headerNameLe).filter
          (fun n => relevantHeaderNames.contains (strLower n))).map
          (fun n => n ++ ":" ++ ((lookupKey hs n).getD ""))) ++ bodyParts b)
      (hinj heq))
  · intro m p e hs b1 b2 hok1 hok2 hby1 hby2 hne heq
    apply hne
    have hk := hinj heq
    have h' : joinBar (([m, p, e]
          ++ ((((hs.map (·.1)).insertionSort headerNameLe).filter
              (fun n => relevantHeaderNames.contains (strLower n))).map
              (fun n => n ++ ":" ++ ((lookupKey hs n).getD "")))) ++ bodyParts b1)
        = joinBar (([m, p, e]
          ++ ((((hs.map (·.1)).insertionSort headerNameLe).filter
              (fun n => relevantHeaderNames.contains (strLower n))).map
              (fun n => n ++ ":" ++ ((lookupKey hs n).getD "")))) ++ bodyParts b2) := hk
    cases b1 with
    | none =>
        cases b2 with
        | none => rfl
        | some bs2 =>
            exfalso
            have hbs2 : bs2 ≠ [] := hok2
            rw [show bodyParts none = ([] : List String) from rfl,
              show bodyParts (some bs2) = [pyStrBytes bs2] from by
                simp [bodyParts, hbs2],
              List.append_nil] at h'
            exact joinBar_append_ne _ (pyStrBytes bs2) (by simp) h'.symm
    | some bs1 =>
        cases b2 with
        | none =>
            exfalso
            have hbs1 : bs1 ≠ [] := hok1
            rw [show bodyParts none = ([] : List String) from rfl,
              show bodyParts (some bs1) = [pyStrBytes bs1] from by
                simp [bodyParts, hbs1],
              List.append_nil] at h'
            exact joinBar_append_ne _ (pyStrBytes bs1) (by simp) h'
        | some bs2 =>
            have hbs1 : bs1 ≠ [] := hok1
            have hbs2 : bs2 ≠ [] := hok2
            rw [show bodyParts (some bs1) = [pyStrBytes bs1] from by
                simp [bodyParts, hbs1],
              show bodyParts (some bs2) = [pyStrBytes bs2] from by
                simp [bodyParts, hbs2]] at h'
            have hps := joinBar_middle_inj _ (pyStrBytes bs1) (pyStrBytes bs2) [] h'
            rw [pyStrBytes_inj bs1 bs2 hby1 hby2 hps]
  · intro m p e b hs v1 v2 hnd hfresh hne heq
    exact hne (cacheKeyString_value_inj "Accept" (by decide) m p e b hs hnd hfresh
      v1 v2 (hinj heq))
  · intro m p e b hs v1 v2 hnd hfresh hne heq
    exact hne (cacheKeyString_value_inj "Content-Type" (by decide) m p e b hs hnd
      hfresh v1 v2 (hinj heq))

/-- Witness for C9 with the identity digest: permuting two headers leaves
the key unchanged, while changing the method changes it. -/
theorem C9_witness :
    (generate_cache_key id "GET" "/a" [("Accept", "x"), ("Host", "h")] none
        "identity"
      = generate_cache_key id "GET" "/a" [("Host", "h"), ("Accept", "x")] none
          "identity") ∧
    (generate_cache_key id "GET" "/a" [("Accept", "x")] none "identity"
      ≠ generate_cache_key id "POST" "/a" [("Accept", "x")] none "identity") := by
  have h := C9_fingerprint_key id (fun _ _ hab => hab)
  refine ⟨h.1 "GET" "/a" "identity" none _ _ (by decide) (by decide), ?_⟩
  exact h.2.2.1 "GET" "POST" "/a" "identity" none [("Accept", "x")] (by decide)
